import Mathlib

/-!
Shallow embedding of SwiftReader's core text pipeline (src/app.js):
tokenizer and punctuation merge, word-index/token-index maps, PDF page
segmenter with page ranges and binary search, pause/timing model, and the
manual-navigation state changes.  Strings are modelled over `List Char`
(ASCII: the code's Unicode-aware word class `[\p{L}\p{N}]` is modelled by
its documented fallback `[A-Za-z0-9]`), JavaScript numbers by `ℚ`/`Int`.
-/

/-- ASCII model of the JavaScript whitespace class used by `\s`, `trim`. -/
def jsIsWs (c : Char) : Bool :=
  c == ' ' || c == '\t' || c == '\n' || c == '\r' || c == '\x0b' || c == '\x0c'

/-- Model of `[\p{L}\p{N}]` (WORD_CHAR_RE); the code's own fallback is `[A-Za-z0-9]`. -/
def isWordChar (c : Char) : Bool := c.isAlpha || c.isDigit

/-- The JavaScript `\w` class `[A-Za-z0-9_]` (used by the hyphen-repair regex). -/
def isJsWordChar (c : Char) : Bool := c.isAlpha || c.isDigit || c == '_'

/-- `String.prototype.trimEnd` on a character list. -/
def trimEndChars (l : List Char) : List Char := (l.reverse.dropWhile jsIsWs).reverse

/-- `String.prototype.trim` on a character list. -/
def jsTrim (l : List Char) : List Char := trimEndChars (l.dropWhile jsIsWs)

/-- `raw.replace(/\r\n/g, "\n").replace(/\r/g, "\n")` (app.js normalizeText). -/
def normNewlines : List Char → List Char
  | [] => []
  | '\r' :: '\n' :: rest => '\n' :: normNewlines rest
  | '\r' :: rest => '\n' :: normNewlines rest
  | c :: rest => c :: normNewlines rest

/-- `t.replace(/(\w)-\n(\w)/g, "$1$2")`: repair of hyphenated line wraps,
with the regex engine's left-to-right non-overlapping scan. -/
def fixHyphens : List Char → List Char
  | a :: '-' :: '\n' :: b :: rest =>
    if isJsWordChar a && isJsWordChar b then a :: b :: fixHyphens rest
    else a :: '-' :: '\n' :: fixHyphens (b :: rest)
  | a :: rest => a :: fixHyphens rest
  | [] => []

def isSpaceTab (c : Char) : Bool := c == ' ' || c == '\t'

/-- `t.replace(/[ \t]+\n/g, "\n")`; `pend` holds the pending space/tab run
(reversed) whose fate depends on whether a newline follows. -/
def collapseSpaceNl : List Char → List Char → List Char
  | pend, [] => pend.reverse
  | pend, c :: rest =>
    if isSpaceTab c then collapseSpaceNl (c :: pend) rest
    else if c == '\n' then '\n' :: collapseSpaceNl [] rest
    else pend.reverse ++ c :: collapseSpaceNl [] rest

def nlRun (k : Nat) : List Char := List.replicate (if 3 ≤ k then 2 else k) '\n'

/-- `t.replace(/\n{3,}/g, "\n\n")`; `k` counts the current newline run. -/
def collapseNl : Nat → List Char → List Char
  | k, [] => nlRun k
  | k, c :: rest =>
    if c == '\n' then collapseNl (k + 1) rest
    else nlRun k ++ c :: collapseNl 0 rest

/-- `t.split("\n")` (every newline separates; empty segments kept). -/
def splitNl : List Char → List (List Char)
  | [] => [[]]
  | c :: rest =>
    if c == '\n' then [] :: splitNl rest
    else
      match splitNl rest with
      | [] => [[c]]
      | l :: ls => (c :: l) :: ls

/-- app.js `normalizeText`: line-ending unification, hyphen-wrap repair,
space-before-newline removal, newline collapsing, per-line trimEnd, trim. -/
def normalizeText (raw : List Char) : List Char :=
  if raw = [] then []
  else
    jsTrim (List.intercalate ['\n']
      ((splitNl (collapseNl 0 (collapseSpaceNl [] (fixHyphens (normNewlines raw))))).map
        trimEndChars))

/-- `t.split(/\n{2,}/g)`: runs of two or more newlines separate paragraphs.
The flag is true while consuming the remainder of a separator run. -/
def splitParas : Bool → List Char → List (List Char)
  | _, [] => [[]]
  | true, '\n' :: rest => splitParas true rest
  | true, c :: rest =>
    match splitParas false rest with
    | [] => [[c]]
    | l :: ls => (c :: l) :: ls
  | false, '\n' :: '\n' :: rest => [] :: splitParas true rest
  | false, c :: rest =>
    match splitParas false rest with
    | [] => [[c]]
    | l :: ls => (c :: l) :: ls

/-- `para.split(/\s+/g).map(t => t.trim()).filter(Boolean)`: the whitespace-
separated fragments.  The Bool records whether the head segment is open. -/
def splitWsAux : List Char → List (List Char) × Bool
  | [] => ([], false)
  | c :: rest =>
    let r := splitWsAux rest
    if jsIsWs c then (r.1, false)
    else if r.2 then
      match r.1 with
      | l :: ls => ((c :: l) :: ls, true)
      | [] => ([[c]], true)
    else ([c] :: r.1, true)

def splitWsChars (l : List Char) : List (List Char) := (splitWsAux l).1

inductive TokenKind
  | word
  | punct
  | para
deriving DecidableEq, Repr

structure Token where
  t : String
  kind : TokenKind
deriving DecidableEq, Repr

/-- The token-stream invariantly stores `{t, kind}` objects (app.js l.226). -/
def paraToken : Token := ⟨"\n\n", .para⟩

structure MergeState where
  mergedRev : List Token
  leading : String
  changed : Bool

/-- app.js `appendToPreviousWord` inside `mergePunctuationTokens`: append to
the last merged word if one exists, otherwise extend the pending text. -/
def appendToPreviousWord (st : MergeState) (text : String) : MergeState :=
  match st.mergedRev with
  | last :: rest =>
    if last.kind = .word then
      { st with mergedRev := { last with t := last.t ++ text } :: rest }
    else { st with leading := st.leading ++ text }
  | [] => { st with leading := st.leading ++ text }

/-- One iteration of the `tokens.forEach` body of `mergePunctuationTokens`. -/
def mergeStep (st : MergeState) (tok : Token) : MergeState :=
  match tok.kind with
  | .para =>
    let st' := if st.leading ≠ "" then { st with changed := true, leading := "" } else st
    { st' with mergedRev := tok :: st'.mergedRev }
  | .punct => appendToPreviousWord { st with changed := true } tok.t
  | .word =>
    let text := st.leading ++ tok.t
    let st' := if text ≠ "" then { st with mergedRev := ⟨text, .word⟩ :: st.mergedRev } else st
    { st' with changed := st'.changed || st.leading != "", leading := "" }

/-- app.js `mergePunctuationTokens`: returns the merged tokens and whether
anything changed. -/
def mergePunctuationTokens (tokens : List Token) : List Token × Bool :=
  let fin := tokens.foldl mergeStep ⟨[], "", false⟩
  (fin.mergedRev.reverse, fin.changed)

/-- Fragment classification inside `tokenize`: word-like iff it contains a
letter or digit. -/
def classifyFragments (para : List Char) : List Token :=
  (splitWsChars para).map fun r =>
    if r.any isWordChar then ⟨⟨r⟩, .word⟩ else ⟨⟨r⟩, .punct⟩

/-- The paragraph loop of `tokenize`: empty paragraphs are skipped entirely,
and a paragraph-break token follows every non-last paragraph. -/
def tokenizeParts : List (List Char) → List Token
  | [] => []
  | p :: rest =>
    let para := jsTrim p
    if para = [] then tokenizeParts rest
    else
      classifyFragments para ++ (if rest = [] then [] else [paraToken]) ++ tokenizeParts rest

/-- app.js `tokenize`: normalize, split into paragraphs, classify fragments,
insert paragraph breaks, then run the punctuation merge. -/
def tokenize (text : String) : List Token :=
  let t := normalizeText text.data
  if t = [] then []
  else (mergePunctuationTokens (tokenizeParts (splitParas false t))).1

/-- app.js `countWords`. -/
def countWords (tokens : List Token) : Nat :=
  tokens.countP (fun tok => tok.kind == .word)

/-- app.js `clamp`: `Math.max(a, Math.min(b, n))`. -/
def clamp (n a b : Int) : Int := max a (min b n)

/-- app.js `getWordIndexForTokenIndexFromTokens` (linear scan): clamp the
token index, count word tokens at positions `0..idx`, return
`Math.max(0, wordIndex - 1)` (both branches of the final `if` coincide). -/
def getWordIndexForTokenIndexFromTokens (tokens : List Token) (tokenIndex : Int) : Int :=
  if tokens = [] then 0
  else
    let idx := (clamp tokenIndex 0 ((tokens.length : Int) - 1)).toNat
    max 0 ((countWords (tokens.take (idx + 1)) : Int) - 1)

/-- The `tokens.forEach` of app.js `getWordIndexMap`, building
`wordIndexToToken` (ascending token indices of word tokens) and
`tokenIndexToWord` (word index or `-1` sentinel); `i`/`w` are the running
token and word counters. -/
def buildMaps : List Token → Nat → Nat → List Nat × List Int
  | [], _, _ => ([], [])
  | tok :: rest, i, w =>
    if tok.kind = .word then
      let m := buildMaps rest (i + 1) (w + 1)
      (i :: m.1, (w : Int) :: m.2)
    else
      let m := buildMaps rest (i + 1) w
      (m.1, (-1 : Int) :: m.2)

/-- app.js `getWordIndexMap` (the cache indirection is keyed by the token
stream, so the map is modelled as a function of the tokens). -/
def getWordIndexMap (tokens : List Token) : List Nat × List Int := buildMaps tokens 0 0

/-- The backward walk of app.js `getWordIndexForTokenIndex`:
`while (idx > 0 && wordIdx < 0) { idx -= 1; wordIdx = map.tokenIndexToWord[idx]; }`. -/
def walkBack (tw : List Int) : Nat → Int
  | 0 => tw.getD 0 (-1)
  | i + 1 => if tw.getD (i + 1) (-1) < 0 then walkBack tw i else tw.getD (i + 1) (-1)

/-- app.js `getWordIndexForTokenIndex`: an absent map (no tokens) yields 0;
otherwise clamp, walk back to the nearest preceding word, `Math.max(0, ·)`. -/
def getWordIndexForTokenIndex (tokens : List Token) (tokenIndex : Int) : Int :=
  if tokens = [] then 0
  else
    let map := getWordIndexMap tokens
    let idx := (clamp tokenIndex 0 ((map.2.length : Int) - 1)).toNat
    max 0 (walkBack map.2 idx)

/-- app.js `getTokenIndexForWordIndex`: clamp into the word-index range and
read `wordIndexToToken` (`?? 0` modelled by `getD _ 0`). -/
def getTokenIndexForWordIndex (tokens : List Token) (wordIndex : Int) : Int :=
  if tokens = [] then 0
  else
    let map := getWordIndexMap tokens
    let clamped := (clamp wordIndex 0 (max 0 ((map.1.length : Int) - 1))).toNat
    ((map.1.getD clamped 0 : Nat) : Int)

structure PageRange where
  page : Nat
  start : Int
  «end» : Int
  wordCount : Nat
deriving DecidableEq, Repr, Inhabited

/-- The `wordCounts.map((wordCount, idx) => ...)` of app.js
`buildPdfContentFromPages`, with the running `cursor` and page index made
explicit: `end = wordCount ? cursor + wordCount - 1 : cursor`. -/
def buildRangesAux : List Nat → Nat → Nat → List PageRange
  | [], _, _ => []
  | wc :: rest, cursor, idx =>
    { page := idx + 1
      start := (cursor : Int)
      «end» := if wc ≠ 0 then (cursor : Int) + wc - 1 else (cursor : Int)
      wordCount := wc } :: buildRangesAux rest (cursor + wc) (idx + 1)

structure PdfLine where
  text : String
  y : ℚ

structure PdfPage where
  pageIndex : Nat
  pageHeight : ℚ
  lines : List PdfLine

/-- Options of `buildPdfStripRules`/`stripPdfHeadersFooters`, with the
defaults the code applies via `??`. -/
structure StripOptions where
  topBand : ℚ := 15 / 100
  bottomBand : ℚ := 15 / 100
  minFrequency : ℚ := 35 / 100
  minLength : Nat := 3
  maxLength : Nat := 90
  enabled : Bool := true
  customPhrases : List String := []

/-- `replace(/\s+/g, " ")`: collapse whitespace runs into single spaces. -/
def collapseWsAux : Bool → List Char → List Char
  | _, [] => []
  | inWs, c :: rest =>
    if jsIsWs c then
      if inWs then collapseWsAux true rest else ' ' :: collapseWsAux true rest
    else c :: collapseWsAux false rest

/-- app.js `normalizeLineForMatch`: lowercase, drop `[^\w\s]`, collapse
whitespace, trim. -/
def normalizeLineForMatch (text : String) : String :=
  ⟨jsTrim (collapseWsAux false
    ((text.data.map Char.toLower).filter (fun c => isJsWordChar c || jsIsWs c)))⟩

/-- app.js `removeDigits`: `replace(/\d+/g, "").trim()`. -/
def removeDigits (text : String) : String :=
  ⟨jsTrim (text.data.filter (fun c => !c.isDigit))⟩

/-- Strip `[\W_]*` (anything but `[A-Za-z0-9]`) from both ends. -/
def stripNonAlnumEnds (l : List Char) : List Char :=
  ((l.dropWhile (fun c => !isWordChar c)).reverse.dropWhile (fun c => !isWordChar c)).reverse

def isRomanChar (c : Char) : Bool :=
  c.toLower == 'i' || c.toLower == 'v' || c.toLower == 'x' || c.toLower == 'l' ||
    c.toLower == 'c' || c.toLower == 'd' || c.toLower == 'm'

/-- `/^\d+\s*\/\s*\d+$/` on the trimmed text. -/
def isSlashPageNum (l : List Char) : Bool :=
  let d1 := l.takeWhile Char.isDigit
  let r2 := (l.dropWhile Char.isDigit).dropWhile jsIsWs
  match r2 with
  | '/' :: r3 =>
    let r4 := r3.dropWhile jsIsWs
    !d1.isEmpty && !r4.isEmpty && r4.all Char.isDigit
  | _ => false

/-- `/^page\s*\d+(\s*(of|\/)\s*\d+)?/i`: an unanchored tail, so the match
only requires the `page\s*\d` prefix. -/
def isPageWordNum (l : List Char) : Bool :=
  match l.map Char.toLower with
  | 'p' :: 'a' :: 'g' :: 'e' :: rest =>
    match rest.dropWhile jsIsWs with
    | c :: _ => c.isDigit
    | [] => false
  | _ => false

/-- app.js `isPageNumberLike`: pure digits, `n / m`, `Page n [of m]`, or
roman numerals, each modulo `[\W_]` padding. -/
def isPageNumberLike (text : String) : Bool :=
  let trimmed := jsTrim text.data
  if trimmed.isEmpty then false
  else
    let compact := trimmed.filter (fun c => !jsIsWs c)
    let core := stripNonAlnumEnds compact
    (!core.isEmpty && core.all Char.isDigit) ||
      isSlashPageNum trimmed ||
      isPageWordNum trimmed ||
      (!core.isEmpty && core.all isRomanChar)

/-- The signature keys a page contributes inside `buildPdfStripRules`: for
margin-band lines, the normalized text with and without digits, filtered to
`[minLength, maxLength]`, deduplicated (the per-page `seen` set). -/
def pageBandKeys (opts : StripOptions) (page : PdfPage) : List String :=
  let height := page.pageHeight
  let topMin := height * (1 - opts.topBand)
  let bottomMax := height * opts.bottomBand
  ((page.lines.filter (fun line => decide (line.y < bottomMax) || decide (topMin < line.y))).flatMap
    (fun line =>
      let norm := normalizeLineForMatch line.text
      ([norm, removeDigits norm].filter (fun k => k != "")).filter
        (fun k => decide (opts.minLength ≤ k.length) && decide (k.length ≤ opts.maxLength)))).dedup

/-- `lineMap.get(key).size`: the number of distinct `pageIndex` values whose
margin band produced `key`. -/
def removablePageCount (opts : StripOptions) (pages : List PdfPage) (key : String) : Nat :=
  (((pages.filter (fun p => decide (key ∈ pageBandKeys opts p))).map (·.pageIndex)).dedup).length

/-- Membership in the `removeSet` of `buildPdfStripRules`: the key occurs on
at least one page (it has a `lineMap` entry) and on `≥ minFrequency` of all
pages. -/
def inRemoveSet (opts : StripOptions) (pages : List PdfPage) (key : String) : Bool :=
  let totalPages := pages.length
  let n := removablePageCount opts pages key
  decide (0 < n) && decide (0 < totalPages) &&
    decide (opts.minFrequency ≤ (n : ℚ) / (totalPages : ℚ))

/-- The normalized `customPhrases` of `buildPdfStripRules`. -/
def normalizedCustomPhrases (opts : StripOptions) : List String :=
  (opts.customPhrases.map normalizeLineForMatch).filter (fun p => p != "")

/-- The line filter of app.js `stripPdfHeadersFooters`. -/
def keepLine (opts : StripOptions) (pages : List PdfPage) (custom : List String)
    (line : PdfLine) : Bool :=
  if !opts.enabled && custom.isEmpty then true
  else
    let rawText : String := ⟨jsTrim line.text.data⟩
    if rawText.data.isEmpty then false
    else
      let norm := normalizeLineForMatch rawText
      let nd := removeDigits norm
      let wordCount := (splitWsChars rawText.data).length
      if decide (120 < rawText.length) || decide (15 < wordCount) then true
      else if isPageNumberLike rawText then false
      else if inRemoveSet opts pages norm || inRemoveSet opts pages nd then false
      else if !custom.isEmpty &&
          custom.any (fun ph => decide (ph.data <:+: norm.data) || decide (ph.data <:+: nd.data)) then
        false
      else true

/-- Stable insertion (descending `y`): models the stable
`Array.prototype.sort` with comparator `(a, b) => b.y - a.y`. -/
def insertLineByY (a : PdfLine) : List PdfLine → List PdfLine
  | [] => [a]
  | b :: rest => if decide (b.y < a.y) then a :: b :: rest else b :: insertLineByY a rest

def sortLinesByYDesc (l : List PdfLine) : List PdfLine :=
  l.foldl (fun acc a => insertLineByY a acc) []

/-- app.js `stripPdfHeadersFooters`, returning the per-page cleaned texts. -/
def stripPdfHeadersFooters (pages : List PdfPage) (opts : StripOptions) : List String :=
  if pages.isEmpty then []
  else
    let custom := normalizedCustomPhrases opts
    pages.map (fun page =>
      let filtered := page.lines.filter (keepLine opts pages custom)
      let ordered := List.intercalate ['\n'] ((sortLinesByYDesc filtered).map (fun l => l.text.data))
      (⟨normalizeText ordered⟩ : String))

structure PdfContent where
  text : String
  tokens : List Token
  wordCount : Nat
  pageRanges : List PageRange

/-- app.js `buildPdfContentFromPages`: strip, tokenize per page, build
cursor-based page ranges, stitch the global stream. -/
def buildPdfContentFromPages (pages : List PdfPage) (opts : StripOptions) : PdfContent :=
  let pageTexts := stripPdfHeadersFooters pages opts
  let tokensByPage := pageTexts.map tokenize
  let wordCounts := tokensByPage.map countWords
  { text := String.intercalate "\n\n" pageTexts
    tokens := tokensByPage.flatten
    wordCount := countWords tokensByPage.flatten
    pageRanges := buildRangesAux wordCounts 0 0 }

/-- The binary-search loop of app.js `getPdfPageForWordIndex`; `result`
carries the page of the last examined midpoint.  `Math.floor((lo + hi) / 2)`
is Euclidean division by 2; an out-of-bounds read (unreachable from the
actual call) is modelled by `getD` with the default range. -/
def pdfSearch (ranges : List PageRange) (wordIndex : Int) (lo hi : Int) (result : Nat) : Nat :=
  if h : lo ≤ hi then
    let mid := (lo + hi) / 2
    let range := ranges.getD mid.toNat default
    if wordIndex < range.start then pdfSearch ranges wordIndex lo (mid - 1) range.page
    else if range.«end» < wordIndex then pdfSearch ranges wordIndex (mid + 1) hi range.page
    else range.page
  else result
termination_by (hi + 1 - lo).toNat
decreasing_by
  all_goals simp_wf
  all_goals omega

/-- app.js `getPdfPageForWordIndex` as a function of the cached page ranges. -/
def getPdfPageForWordIndex (ranges : List PageRange) (wordIndex : Int) : Nat :=
  match ranges with
  | [] => 1
  | r0 :: _ => pdfSearch ranges wordIndex 0 ((ranges.length : Int) - 1) r0.page

/-- `clamp` over `ℚ` (JavaScript numbers in the timing model). -/
def clampQ (n a b : ℚ) : ℚ := max a (min b n)

/-- app.js `getBaseDelayMs` as a function of the wpm setting. -/
def getBaseDelayMs (wpm : ℚ) : ℚ := 60000 / clampQ wpm 150 1200

/-- TRAILING_WRAPPER_RE character class. -/
def isTrailingWrapper (c : Char) : Bool :=
  c == ')' || c == ']' || c == Char.ofNat 125 || c == '"' || c == Char.ofNat 39 ||
    c == '”' || c == '’'

/-- HARD_PUNCT character class. -/
def isHardPunct (c : Char) : Bool := c == '.' || c == '!' || c == '?' || c == '…'

/-- SOFT_PUNCT character class. -/
def isSoftPunct (c : Char) : Bool := c == ',' || c == ';' || c == ':'

/-- `HARD_PUNCT_RE = /^[.!?…]+$/`. -/
def testHardPunctRun (s : String) : Bool := !s.data.isEmpty && s.data.all isHardPunct

/-- `SOFT_PUNCT_RE = /^[,;:]+$/`. -/
def testSoftPunctRun (s : String) : Bool := !s.data.isEmpty && s.data.all isSoftPunct

/-- Whether the last character satisfies `p` — the `/[...]+$/` regex tests. -/
def lastCharIs (p : Char → Bool) (l : List Char) : Bool :=
  match l.reverse with
  | c :: _ => p c
  | [] => false

/-- `replace(TRAILING_WRAPPER_RE, "")`: drop trailing bracket/quote wrappers. -/
def stripTrailingWrappers (l : List Char) : List Char :=
  (l.reverse.dropWhile isTrailingWrapper).reverse

inductive PauseKind
  | hard
  | soft
deriving DecidableEq, Repr

/-- app.js `getPauseKindForWord`. -/
def getPauseKindForWord (text : String) : Option PauseKind :=
  let trimmed := jsTrim text.data
  if trimmed.isEmpty then none
  else
    let cleaned := stripTrailingWrappers trimmed
    if lastCharIs isHardPunct cleaned then some .hard
    else if lastCharIs isSoftPunct cleaned then some .soft
    else none

structure PauseInfo where
  extraDelay : ℚ
  countPause : Bool
deriving DecidableEq, Repr

/-- app.js `getPauseInfoForToken` as a pure function of the auto-pause flag,
the pause-intensity slider value, the wpm setting and the token. -/
def getPauseInfoForToken (autoPause : Bool) (pauseSliderValue wpm : ℚ) (tok : Token) :
    PauseInfo :=
  if !autoPause then ⟨0, false⟩
  else
    let pauseScale := clampQ pauseSliderValue 0 200 / 100
    let baseDelay := getBaseDelayMs wpm
    let maxExtra := baseDelay * 2
    match tok.kind with
    | .para =>
      let e := min (baseDelay * 1.2 * pauseScale) maxExtra
      ⟨e, decide (0 < e)⟩
    | .punct =>
      if testHardPunctRun tok.t then
        let e := min (baseDelay * 0.8 * pauseScale) maxExtra
        ⟨e, decide (0 < e)⟩
      else if testSoftPunctRun tok.t then
        let e := min (baseDelay * 0.35 * pauseScale) maxExtra
        ⟨e, decide (0 < e)⟩
      else ⟨0, false⟩
    | .word =>
      match getPauseKindForWord tok.t with
      | some .hard =>
        let e := min (baseDelay * 0.8 * pauseScale) maxExtra
        ⟨e, decide (0 < e)⟩
      | some .soft =>
        let e := min (baseDelay * 0.35 * pauseScale) maxExtra
        ⟨e, decide (0 < e)⟩
      | none => ⟨0, false⟩

/-- The `reader` session object fields touched by stop/navigation
(`timer` as a has-pending-timeout flag, clock values as integers). -/
structure ReaderState where
  isPlaying : Bool
  timer : Bool
  startedAt : Option Int
  elapsedBefore : Int
  sessionWords : Nat
  pauses : Nat
  chunkDisplay : Option (List Token)
  nextTickAt : Option ℚ

/-- app.js `stopReader`: clear the timer, accrue elapsed time if playing,
leave Playing; a hard stop additionally resets the session stats. -/
def stopReader (hardStop : Bool) (now : Int) (r : ReaderState) : ReaderState :=
  let r1 := { r with timer := false }
  let r2 :=
    if r1.isPlaying then
      { r1 with elapsedBefore := r1.elapsedBefore + (now - r1.startedAt.getD now) }
    else r1
  let r3 := { r2 with isPlaying := false, nextTickAt := none, chunkDisplay := none }
  if hardStop then
    { r3 with startedAt := none, elapsedBefore := 0, sessionWords := 0, pauses := 0 }
  else r3

/-- The engine-visible state mutated by navigation: the reader session, the
selected book's cached tokens (none — no book selected), and the playback
position `book.progress.index`. -/
structure AppState where
  reader : ReaderState
  book : Option (List Token)
  position : Int

/-- app.js `setTokenIndex` restricted to the engine state: clears the chunk
display when not from playback and stores the clamped token index.  (The
remaining body only rewrites derived `readerState`/`stats` fields of the
book and rerenders; it never touches `reader.sessionWords`/`reader.pauses`.) -/
def setTokenIndexModel (st : AppState) (idx : Int) (fromPlayback : Bool) : AppState :=
  match st.book with
  | none => st
  | some tokens =>
    let st1 :=
      if !fromPlayback then { st with reader := { st.reader with chunkDisplay := none } }
      else st
    let clamped := clamp idx 0 (max 0 ((tokens.length : Int) - 1))
    { st1 with position := clamped }

/-- app.js `stepWords`: pause active playback (soft stop), then reposition
by `delta` clamped to the stream bounds. -/
def stepWords (delta : Int) (now : Int) (st : AppState) : AppState :=
  match st.book with
  | none => st
  | some tokens =>
    let st1 :=
      if st.reader.isPlaying then { st with reader := stopReader false now st.reader } else st
    if tokens.isEmpty then st1
    else
      let next := clamp (st1.position + delta) 0 (max 0 ((tokens.length : Int) - 1))
      setTokenIndexModel st1 next false

/-- `tokens[i]` with a JavaScript-style out-of-bounds `undefined`. -/
def tokenAt (tokens : List Token) (i : Int) : Option Token :=
  if 0 ≤ i then tokens[i.toNat]? else none

/-- The `isSentenceEnd` closure of app.js `stepSentence`. -/
def isSentenceEnd (tokens : List Token) (i : Int) : Bool :=
  match tokenAt tokens i with
  | none => false
  | some t =>
    match t.kind with
    | .punct => testHardPunctRun t.t
    | .word => lastCharIs isHardPunct (stripTrailingWrappers t.t.data)
    | .para => false

/-- `while (i > 0 && (tokens[i]?.kind === "punct" || tokens[i]?.kind === "para")) i--`. -/
def skipPunctBack (tokens : List Token) (i : Int) : Int :=
  if _h : 0 < i then
    match tokenAt tokens i with
    | some t =>
      if t.kind = .punct ∨ t.kind = .para then skipPunctBack tokens (i - 1) else i
    | none => i
  else i
termination_by i.toNat
decreasing_by
  all_goals simp_wf
  all_goals omega

/-- `while (i > 0 && !isSentenceEnd(i)) i--`. -/
def findSentenceEndBack (tokens : List Token) (i : Int) : Int :=
  if h : 0 < i then
    if isSentenceEnd tokens i then i else findSentenceEndBack tokens (i - 1)
  else i
termination_by i.toNat
decreasing_by
  all_goals simp_wf
  all_goals omega

/-- `while (i < tokens.length - 1 && !isSentenceEnd(i)) i++`. -/
def findSentenceEndFwd (tokens : List Token) (i : Int) : Int :=
  if h : i < (tokens.length : Int) - 1 then
    if isSentenceEnd tokens i then i else findSentenceEndFwd tokens (i + 1)
  else i
termination_by ((tokens.length : Int) - 1 - i).toNat
decreasing_by
  all_goals simp_wf
  all_goals omega

/-- app.js `stepSentence`: pause active playback, walk to the sentence
boundary in direction `dir`, clamp, reposition. -/
def stepSentence (dir : Int) (now : Int) (st : AppState) : AppState :=
  match st.book with
  | none => st
  | some tokens =>
    let st1 :=
      if st.reader.isPlaying then { st with reader := stopReader false now st.reader } else st
    let idx := st1.position
    let target :=
      if dir < 0 then
        clamp (findSentenceEndBack tokens (skipPunctBack tokens (idx - 1)) + 1) 0
          ((tokens.length : Int) - 1)
      else
        clamp (findSentenceEndFwd tokens (idx + 1) + 1) 0 ((tokens.length : Int) - 1)
    setTokenIndexModel st1 target false

/-- C2 counterexample: the example input tokenizes to 7 tokens (4 word
tokens, one paragraph break, 2 word tokens), not 6 as the claim totals. -/
theorem C2_total_six_counterexample :
    (tokenize "Hello, world! Next paragraph.\n\nSecond para.").length = 7 ∧
      (tokenize "Hello, world! Next paragraph.\n\nSecond para.").length ≠ 6 := by
  decide

/-- C2 (amended): tokenize on the example yields exactly the word tokens
"Hello," "world!" "Next" "paragraph.", one paragraph break, then "Second"
"para." — 7 tokens in total, of which 6 are words and none is a standalone
punctuation token. -/
theorem C2_tokenize_example :
    tokenize "Hello, world! Next paragraph.\n\nSecond para." =
        [⟨"Hello,", .word⟩, ⟨"world!", .word⟩, ⟨"Next", .word⟩, ⟨"paragraph.", .word⟩,
          ⟨"\n\n", .para⟩, ⟨"Second", .word⟩, ⟨"para.", .word⟩] ∧
      countWords (tokenize "Hello, world! Next paragraph.\n\nSecond para.") = 6 ∧
      (tokenize "Hello, world! Next paragraph.\n\nSecond para.").countP
          (fun tok => tok.kind == .punct) = 0 := by
  decide

/-- C7: binary-search page lookup over the ranges (1,0,4), (2,5,9), (3,10,12)
resolves word-index 0 to page 1, 9 to page 2, and 12 to page 3. -/
theorem C7_page_lookup_examples :
    getPdfPageForWordIndex
        [⟨1, 0, 4, 5⟩, ⟨2, 5, 9, 5⟩, ⟨3, 10, 12, 3⟩] 0 = 1 ∧
      getPdfPageForWordIndex
        [⟨1, 0, 4, 5⟩, ⟨2, 5, 9, 5⟩, ⟨3, 10, 12, 3⟩] 9 = 2 ∧
      getPdfPageForWordIndex
        [⟨1, 0, 4, 5⟩, ⟨2, 5, 9, 5⟩, ⟨3, 10, 12, 3⟩] 12 = 3 := by
  refine ⟨?_, ?_, ?_⟩
  · simp only [getPdfPageForWordIndex]
    rw [pdfSearch.eq_def]
    norm_num [List.getD]
    rw [pdfSearch.eq_def]
    norm_num [List.getD]
  · simp only [getPdfPageForWordIndex]
    rw [pdfSearch.eq_def]
    norm_num [List.getD]
  · simp only [getPdfPageForWordIndex]
    rw [pdfSearch.eq_def]
    norm_num [List.getD]
    rw [pdfSearch.eq_def]
    norm_num [List.getD]
    simp only [show Int.toNat 2 = 2 by rfl]
    norm_num

/-- C9: stepWords and stepSentence on a state with a selected book leave the
reader paused and do not change the session counters
`reader.sessionWords` and `reader.pauses`. -/
theorem C9_navigation_pauses_and_preserves_session
    (st : AppState) (tokens : List Token) (delta dir now : Int)
    (hbook : st.book = some tokens) :
    ((stepWords delta now st).reader.isPlaying = false ∧
        (stepWords delta now st).reader.sessionWords = st.reader.sessionWords ∧
        (stepWords delta now st).reader.pauses = st.reader.pauses) ∧
      ((stepSentence dir now st).reader.isPlaying = false ∧
        (stepSentence dir now st).reader.sessionWords = st.reader.sessionWords ∧
        (stepSentence dir now st).reader.pauses = st.reader.pauses) := by
  by_cases hp : st.reader.isPlaying = true <;>
    · constructor
      · simp only [stepWords, hbook]
        by_cases he : tokens.isEmpty <;>
          simp [hp, he, stopReader, setTokenIndexModel, hbook]
      · simp only [stepSentence, hbook]
        simp [hp, stopReader, setTokenIndexModel, hbook]

/-- Witness for C9 at a concrete playing state with a selected book. -/
theorem C9_navigation_pauses_and_preserves_session_witness :
    (stepWords 1 7
          ⟨⟨true, true, some 0, 0, 5, 2, none, none⟩,
            some [⟨"a", .word⟩, ⟨"b.", .word⟩], 0⟩).reader.isPlaying = false ∧
      (stepWords 1 7
          ⟨⟨true, true, some 0, 0, 5, 2, none, none⟩,
            some [⟨"a", .word⟩, ⟨"b.", .word⟩], 0⟩).reader.sessionWords = 5 ∧
      (stepSentence 1 7
          ⟨⟨true, true, some 0, 0, 5, 2, none, none⟩,
            some [⟨"a", .word⟩, ⟨"b.", .word⟩], 0⟩).reader.pauses = 2 := by
  have h := C9_navigation_pauses_and_preserves_session
    ⟨⟨true, true, some 0, 0, 5, 2, none, none⟩, some [⟨"a", .word⟩, ⟨"b.", .word⟩], 0⟩
    [⟨"a", .word⟩, ⟨"b.", .word⟩] 1 1 7 rfl
  exact ⟨h.1.1, h.1.2.1, h.2.2.2⟩

/-- Proof helper: the last character of the wrapper-stripped text, viewed
from the reversed list. -/
def headHard (ys : List Char) : Bool :=
  match ys.dropWhile isTrailingWrapper with
  | c :: _ => isHardPunct c
  | [] => false

theorem lastCharIs_strip_eq_headHard (l : List Char) :
    lastCharIs isHardPunct (stripTrailingWrappers l) = headHard l.reverse := by
  cases h : l.reverse.dropWhile isTrailingWrapper <;>
    simp [lastCharIs, stripTrailingWrappers, headHard, h]

theorem wrapper_not_ws (c : Char) (h : isTrailingWrapper c = true) : jsIsWs c = false := by
  simp only [isTrailingWrapper, Bool.or_eq_true, beq_iff_eq] at h
  rcases h with ((((((h | h) | h) | h) | h) | h) | h) <;> subst h <;> decide

theorem hard_not_ws (c : Char) (h : isHardPunct c = true) : jsIsWs c = false := by
  simp only [isHardPunct, Bool.or_eq_true, beq_iff_eq] at h
  rcases h with ((h | h) | h) | h <;> subst h <;> decide

theorem headHard_head_not_ws (c : Char) (ys : List Char)
    (h : headHard (c :: ys) = true) : jsIsWs c = false := by
  by_cases hw : isTrailingWrapper c = true
  · exact wrapper_not_ws c hw
  · simp only [headHard, List.dropWhile_cons, hw] at h
    simp only [Bool.false_eq_true, if_false] at h
    exact hard_not_ws c h

theorem headHard_append_ws (a b : List Char) (hb : ∀ c ∈ b, jsIsWs c = true)
    (h : headHard (a ++ b) = true) : headHard a = true := by
  induction a with
  | nil =>
    exfalso
    simp only [List.nil_append] at h
    cases b with
    | nil => simp [headHard] at h
    | cons c b' =>
      have hws := hb c (List.mem_cons_self c b')
      have hnw := headHard_head_not_ws c b' h
      simp [hws] at hnw
  | cons c a' ih =>
    by_cases hw : isTrailingWrapper c = true
    · simp only [headHard, List.cons_append, List.dropWhile_cons, hw, if_true] at h ⊢
      exact ih h
    · simp only [headHard, List.cons_append, List.dropWhile_cons, hw] at h ⊢
      simpa using h

/-- If the raw text, after stripping trailing wrappers, ends in a hard
punctuation character, `getPauseKindForWord` classifies it as `hard`. -/
theorem getPauseKindForWord_hard (t : String)
    (h : lastCharIs isHardPunct (stripTrailingWrappers t.data) = true) :
    getPauseKindForWord t = some .hard := by
  rw [lastCharIs_strip_eq_headHard] at h
  have hsplit : t.data.reverse =
      (t.data.dropWhile jsIsWs).reverse ++ (t.data.takeWhile jsIsWs).reverse := by
    rw [← List.reverse_append, List.takeWhile_append_dropWhile]
  rw [hsplit] at h
  have h2 : headHard ((t.data.dropWhile jsIsWs).reverse) = true := by
    refine headHard_append_ws _ _ (fun c hc => ?_) h
    exact List.mem_takeWhile_imp (List.mem_reverse.mp hc)
  cases hc : (t.data.dropWhile jsIsWs).reverse with
  | nil => rw [hc] at h2; simp [headHard] at h2
  | cons c ys =>
    have hcnw : jsIsWs c = false := headHard_head_not_ws c ys (hc ▸ h2)
    have htrim : jsTrim t.data = t.data.dropWhile jsIsWs := by
      rw [jsTrim, trimEndChars, hc, List.dropWhile_cons, hcnw]
      simp only [Bool.false_eq_true, if_false]
      rw [← hc, List.reverse_reverse]
    rw [getPauseKindForWord, htrim]
    have hne : (t.data.dropWhile jsIsWs).isEmpty = false := by
      cases hd : t.data.dropWhile jsIsWs with
      | nil => rw [hd] at hc; simp at hc
      | cons _ _ => rfl
    rw [hne]
    simp only [Bool.false_eq_true, if_false]
    have h3 : headHard (c :: ys) = true := hc ▸ h2
    rw [lastCharIs_strip_eq_headHard, hc]
    simp [h3]

/-- C5 counterexample: with auto-pause enabled but pause intensity 0, a word
ending in hard punctuation gets extraDelay 0 and is NOT counted as a pause,
although the claim says every such word counts as a pause. -/
theorem C5_counts_pause_counterexample :
    lastCharIs isHardPunct (stripTrailingWrappers ("end." : String).data) = true ∧
      getPauseInfoForToken true 0 300 ⟨"end.", .word⟩ = ⟨0, false⟩ := by
  constructor
  · decide
  · have hk := getPauseKindForWord_hard "end." (by decide)
    simp [getPauseInfoForToken, hk, getBaseDelayMs, clampQ]

/-- C5 (amended): with auto-pause enabled, every word token whose text after
stripping trailing bracket/quote wrappers ends in a hard-punctuation
character gets extraDelay = min(baseDelay·0.8·scale, 2·baseDelay), and it is
counted as a pause exactly when that extra delay is positive. -/
theorem C5_hard_word_pause (pauseSliderValue wpm : ℚ) (t : String)
    (hhard : lastCharIs isHardPunct (stripTrailingWrappers t.data) = true) :
    (getPauseInfoForToken true pauseSliderValue wpm ⟨t, .word⟩).extraDelay =
        min (getBaseDelayMs wpm * 0.8 * (clampQ pauseSliderValue 0 200 / 100))
          (getBaseDelayMs wpm * 2) ∧
      ((getPauseInfoForToken true pauseSliderValue wpm ⟨t, .word⟩).countPause = true ↔
        0 < (getPauseInfoForToken true pauseSliderValue wpm ⟨t, .word⟩).extraDelay) := by
  have hk := getPauseKindForWord_hard t hhard
  simp [getPauseInfoForToken, hk]

/-- Witness for C5 at wpm 300, pause intensity 80: extraDelay
min(200·0.8·0.8, 400) = 128 ms, counted as a pause. -/
theorem C5_hard_word_pause_witness :
    (getPauseInfoForToken true 80 300 ⟨"end.", .word⟩).extraDelay = 128 ∧
      (getPauseInfoForToken true 80 300 ⟨"end.", .word⟩).countPause = true := by
  have h := C5_hard_word_pause 80 300 "end." (by decide)
  have he : (getPauseInfoForToken true 80 300 ⟨"end.", .word⟩).extraDelay = 128 := by
    rw [h.1]
    norm_num [getBaseDelayMs, clampQ]
  exact ⟨he, h.2.mpr (by rw [he]; norm_num)⟩

/-- Every token the merge pass emits is a paragraph break or a word with
non-empty text. -/
def isMergedForm (tok : Token) : Prop :=
  tok.kind = .para ∨ (tok.kind = .word ∧ tok.t ≠ "")

theorem append_left_ne_empty (s r : String) (h : s ≠ "") : s ++ r ≠ "" := by
  intro he
  have hd : (s ++ r).data = [] := by rw [he]
  rw [String.data_append] at hd
  rcases List.append_eq_nil.mp hd with ⟨h1, _⟩
  exact h (String.ext h1)

theorem mergeStep_preserves_form (st : MergeState) (tok : Token)
    (hst : ∀ y ∈ st.mergedRev, isMergedForm y) :
    ∀ x ∈ (mergeStep st tok).mergedRev, isMergedForm x := by
  obtain ⟨tt, tk⟩ := tok
  intro x hx
  cases tk with
  | para =>
    simp only [mergeStep] at hx
    split at hx <;>
      · rcases List.mem_cons.mp hx with h | h
        · exact Or.inl (by rw [h])
        · exact hst x h
  | punct =>
    simp only [mergeStep, appendToPreviousWord] at hx
    cases hrev : st.mergedRev with
    | nil => rw [hrev] at hx; simp at hx
    | cons last rest =>
      rw [hrev] at hx
      dsimp at hx
      split at hx
      · rcases List.mem_cons.mp hx with h | h
        · subst h
          rcases hst last (hrev ▸ List.mem_cons_self last rest) with hp | ⟨hw, hne⟩
          · exact Or.inl hp
          · exact Or.inr ⟨hw, append_left_ne_empty _ _ hne⟩
        · exact hst x (hrev ▸ List.mem_cons_of_mem last h)
      · exact hst x (hrev ▸ hx)
  | word =>
    simp only [mergeStep] at hx
    split at hx
    · rcases List.mem_cons.mp hx with h | h
      · subst h; exact Or.inr ⟨rfl, by assumption⟩
      · exact hst x h
    · exact hst x hx

theorem foldl_mergeStep_form (ts : List Token) (st : MergeState)
    (hst : ∀ y ∈ st.mergedRev, isMergedForm y) :
    ∀ x ∈ (ts.foldl mergeStep st).mergedRev, isMergedForm x := by
  induction ts generalizing st with
  | nil => exact hst
  | cons tok ts' ih =>
    intro x hx
    exact ih (mergeStep st tok) (mergeStep_preserves_form st tok hst) x hx

theorem mergePunctuationTokens_form (ts : List Token) :
    ∀ x ∈ (mergePunctuationTokens ts).1, isMergedForm x := by
  intro x hx
  rw [mergePunctuationTokens] at hx
  exact foldl_mergeStep_form ts ⟨[], "", false⟩ (by simp) x (List.mem_reverse.mp hx)

/-- Folding the merge step over an already-merged stream (from a state with
no pending text) just replays the tokens and never sets `changed`. -/
theorem foldl_mergeStep_merged (ts : List Token) (hts : ∀ tok ∈ ts, isMergedForm tok)
    (st : MergeState) (hl : st.leading = "") :
    ts.foldl mergeStep st = ⟨ts.reverse ++ st.mergedRev, "", st.changed⟩ := by
  induction ts generalizing st with
  | nil =>
    obtain ⟨mr, l, c⟩ := st
    simp at hl
    simp [hl]
  | cons tok ts' ih =>
    have htok := hts tok (List.mem_cons_self tok ts')
    have hts' : ∀ tok ∈ ts', isMergedForm tok :=
      fun t ht => hts t (List.mem_cons_of_mem tok ht)
    obtain ⟨tt, tk⟩ := tok
    rcases htok with hp | ⟨hw, hne⟩
    · simp only at hp
      subst hp
      rw [List.foldl_cons]
      have hstep : mergeStep st ⟨tt, .para⟩ =
          ⟨(⟨tt, .para⟩ : Token) :: st.mergedRev, st.leading, st.changed⟩ := by
        simp [mergeStep, hl]
      rw [hstep, ih hts' _ (by simpa using hl)]
      simp
    · simp only at hw
      subst hw
      rw [List.foldl_cons]
      have hstep : mergeStep st ⟨tt, .word⟩ =
          ⟨(⟨tt, .word⟩ : Token) :: st.mergedRev, "", st.changed⟩ := by
        simp [mergeStep, hl, hne]
      rw [hstep, ih hts' _ rfl]
      simp

/-- A word token's text contains at least one letter or digit. -/
def wordHasChar (tok : Token) : Prop :=
  tok.kind = .word → tok.t.data.any isWordChar = true

theorem any_append_left (s r : String) (h : s.data.any isWordChar = true) :
    (s ++ r).data.any isWordChar = true := by
  rw [String.data_append, List.any_append, h, Bool.true_or]

theorem any_append_right (s r : String) (h : r.data.any isWordChar = true) :
    (s ++ r).data.any isWordChar = true := by
  rw [String.data_append, List.any_append, h, Bool.or_true]

theorem mergeStep_preserves_wordChar (st : MergeState) (tok : Token)
    (hst : ∀ y ∈ st.mergedRev, wordHasChar y) (htok : wordHasChar tok) :
    ∀ x ∈ (mergeStep st tok).mergedRev, wordHasChar x := by
  obtain ⟨tt, tk⟩ := tok
  intro x hx
  cases tk with
  | para =>
    simp only [mergeStep] at hx
    split at hx <;>
      · rcases List.mem_cons.mp hx with h | h
        · subst h; intro hk; simp at hk
        · exact hst x h
  | punct =>
    simp only [mergeStep, appendToPreviousWord] at hx
    cases hrev : st.mergedRev with
    | nil => rw [hrev] at hx; simp at hx
    | cons last rest =>
      rw [hrev] at hx
      dsimp at hx
      split at hx
      · rcases List.mem_cons.mp hx with h | h
        · subst h
          intro _
          exact any_append_left _ _
            (hst last (hrev ▸ List.mem_cons_self last rest) (by assumption))
        · exact hst x (hrev ▸ List.mem_cons_of_mem last h)
      · exact hst x (hrev ▸ hx)
  | word =>
    simp only [mergeStep] at hx
    split at hx
    · rcases List.mem_cons.mp hx with h | h
      · subst h
        intro _
        exact any_append_right _ _ (htok rfl)
      · exact hst x h
    · exact hst x hx

theorem mergePunctuationTokens_wordChar (ts : List Token)
    (hts : ∀ tok ∈ ts, wordHasChar tok) :
    ∀ tok ∈ (mergePunctuationTokens ts).1, wordHasChar tok := by
  have main : ∀ (l : List Token) (st : MergeState), (∀ tok ∈ l, wordHasChar tok) →
      (∀ y ∈ st.mergedRev, wordHasChar y) →
      ∀ x ∈ (l.foldl mergeStep st).mergedRev, wordHasChar x := by
    intro l
    induction l with
    | nil => intro st _ hst; exact hst
    | cons tok l' ih =>
      intro st hl hst x hx
      exact ih (mergeStep st tok)
        (fun t ht => hl t (List.mem_cons_of_mem tok ht))
        (mergeStep_preserves_wordChar st tok hst (hl tok (List.mem_cons_self tok l')))
        x hx
  intro tok htok
  rw [mergePunctuationTokens] at htok
  exact main ts ⟨[], "", false⟩ hts (by simp) tok (List.mem_reverse.mp htok)

/-- C4 counterexample: a word-kind token whose text is purely punctuation
survives the merge pass unchanged, so merged output can contain a token of
purely punctuation characters. -/
theorem C4_purely_punct_counterexample :
    (mergePunctuationTokens [⟨"...", .word⟩]).1 = [⟨"...", .word⟩] ∧
      ¬(∀ tok ∈ (mergePunctuationTokens [⟨"...", .word⟩]).1,
          tok.t.data.any isWordChar = true) := by
  constructor
  · rfl
  · decide

/-- C4 (amended): mergePunctuationTokens is idempotent on every token list
(the second pass returns identical tokens and reports `changed = false`);
and whenever every input word token contains a letter or digit (as all
tokenizer-produced word tokens do), every merged word token still does. -/
theorem C4_merge_idempotent (ts : List Token) :
    (mergePunctuationTokens (mergePunctuationTokens ts).1).1 =
        (mergePunctuationTokens ts).1 ∧
      (mergePunctuationTokens (mergePunctuationTokens ts).1).2 = false ∧
      ((∀ tok ∈ ts, tok.kind = .word → tok.t.data.any isWordChar = true) →
        ∀ tok ∈ (mergePunctuationTokens ts).1, tok.kind = .word →
          tok.t.data.any isWordChar = true) := by
  refine ⟨?_, ?_, fun h => mergePunctuationTokens_wordChar ts h⟩
  · conv_lhs => rw [mergePunctuationTokens]
    rw [foldl_mergeStep_merged _ (mergePunctuationTokens_form ts) _ rfl]
    simp
  · conv_lhs => rw [mergePunctuationTokens]
    rw [foldl_mergeStep_merged _ (mergePunctuationTokens_form ts) _ rfl]

/-- Witness for C4 on a concrete stream with a trailing punctuation token. -/
theorem C4_merge_idempotent_witness :
    (mergePunctuationTokens
          (mergePunctuationTokens [⟨"a", .word⟩, ⟨"-", .punct⟩]).1).1 =
        (mergePunctuationTokens [⟨"a", .word⟩, ⟨"-", .punct⟩]).1 ∧
      (∀ tok ∈ (mergePunctuationTokens [⟨"a", .word⟩, ⟨"-", .punct⟩]).1,
        tok.kind = .word → tok.t.data.any isWordChar = true) :=
  ⟨(C4_merge_idempotent [⟨"a", .word⟩, ⟨"-", .punct⟩]).1,
    (C4_merge_idempotent [⟨"a", .word⟩, ⟨"-", .punct⟩]).2.2 (by decide)⟩

/-- The concatenated texts of a run of tokens. -/
def textConcat (qs : List Token) : String :=
  qs.foldr (fun q acc => q.t ++ acc) ""

theorem mergeStep_para_mergedRev (st : MergeState) (tt : String) :
    (mergeStep st ⟨tt, .para⟩).mergedRev = (⟨tt, .para⟩ : Token) :: st.mergedRev := by
  simp only [mergeStep]
  split <;> rfl

theorem mergeStep_para_leading (st : MergeState) (tt : String) :
    (mergeStep st ⟨tt, .para⟩).leading = "" := by
  simp only [mergeStep]
  split
  · rfl
  · next h => simpa using h

/-- A run of punctuation tokens hitting a state whose most recent merged
token is not a word is accumulated entirely into the pending `leading`. -/
theorem foldl_mergeStep_puncts (qs : List Token) (hqs : ∀ q ∈ qs, q.kind = .punct)
    (st : MergeState) (hhead : ∀ last ∈ st.mergedRev.head?, last.kind ≠ .word) :
    (qs.foldl mergeStep st).mergedRev = st.mergedRev ∧
      (qs.foldl mergeStep st).leading = st.leading ++ textConcat qs := by
  induction qs generalizing st with
  | nil => simp [textConcat]
  | cons q qs' ih =>
    obtain ⟨qt, qk⟩ := q
    have hqk : qk = .punct := hqs _ (List.mem_cons_self _ _)
    subst hqk
    have hstep : mergeStep st ⟨qt, .punct⟩ =
        { st with changed := true, leading := st.leading ++ qt } := by
      simp only [mergeStep, appendToPreviousWord]
      cases hrev : st.mergedRev with
      | nil => rfl
      | cons last rest =>
        have := hhead last (by rw [hrev]; rfl)
        simp [this]
    rw [List.foldl_cons, hstep]
    have hres := ih (fun t ht => hqs t (List.mem_cons_of_mem _ ht))
      { st with changed := true, leading := st.leading ++ qt }
      (by simpa using hhead)
    refine ⟨hres.1, ?_⟩
    rw [hres.2]
    show st.leading ++ qt ++ textConcat qs' = st.leading ++ (qt ++ textConcat qs')
    rw [String.append_assoc]

/-- Tokens strictly below the top of the merged stack survive the rest of
the fold. -/
theorem foldl_mergeStep_tail_mem (ts : List Token) (st : MergeState) (x : Token)
    (hx : x ∈ st.mergedRev.tail) : x ∈ (ts.foldl mergeStep st).mergedRev := by
  induction ts generalizing st with
  | nil => exact List.mem_of_mem_tail hx
  | cons tok ts' ih =>
    refine ih (mergeStep st tok) ?_
    obtain ⟨tt, tk⟩ := tok
    cases tk with
    | para =>
      rw [mergeStep_para_mergedRev]
      exact List.mem_of_mem_tail hx
    | punct =>
      simp only [mergeStep, appendToPreviousWord]
      cases hrev : st.mergedRev with
      | nil => rw [hrev] at hx; simp at hx
      | cons last rest =>
        rw [hrev] at hx
        dsimp
        split <;> simpa using hx
    | word =>
      simp only [mergeStep]
      split
      · exact List.mem_of_mem_tail hx
      · exact hx

/-- A word token at the top of the merged stack survives to the end of the
fold, its text possibly extended on the right by merged punctuation. -/
theorem foldl_mergeStep_head_word (ts : List Token) :
    ∀ (st : MergeState) (last : Token) (rest : List Token),
      st.mergedRev = last :: rest → last.kind = .word →
      ∃ t2 : Token, t2.kind = .word ∧ last.t.data <+: t2.t.data ∧
        t2 ∈ (ts.foldl mergeStep st).mergedRev := by
  induction ts with
  | nil =>
    intro st last rest hrev hw
    refine ⟨last, hw, List.prefix_refl _, ?_⟩
    rw [List.foldl_nil, hrev]
    exact List.mem_cons_self _ _
  | cons tok ts' ih =>
    intro st last rest hrev hw
    obtain ⟨tt, tk⟩ := tok
    cases tk with
    | para =>
      refine ⟨last, hw, List.prefix_refl _, ?_⟩
      rw [List.foldl_cons]
      refine foldl_mergeStep_tail_mem ts' _ last ?_
      rw [mergeStep_para_mergedRev, hrev]
      exact List.mem_cons_self _ _
    | punct =>
      have hstep : (mergeStep st ⟨tt, .punct⟩).mergedRev =
          ({ last with t := last.t ++ tt } : Token) :: rest := by
        simp only [mergeStep, appendToPreviousWord, hrev]
        simp [hw]
      rw [List.foldl_cons]
      obtain ⟨t2, h2w, h2p, h2m⟩ :=
        ih (mergeStep st ⟨tt, .punct⟩) ({ last with t := last.t ++ tt }) rest hstep hw
      refine ⟨t2, h2w, ?_, h2m⟩
      refine List.IsPrefix.trans ?_ h2p
      show last.t.data <+: (last.t ++ tt).data
      rw [String.data_append]
      exact List.prefix_append _ _
    | word =>
      rw [List.foldl_cons]
      by_cases hne : st.leading ++ tt = ""
      · have hstep : (mergeStep st ⟨tt, .word⟩).mergedRev = last :: rest := by
          simp only [mergeStep, hne]
          simp [hrev]
        obtain ⟨t2, h2w, h2p, h2m⟩ := ih _ last rest hstep hw
        exact ⟨t2, h2w, h2p, h2m⟩
      · refine ⟨last, hw, List.prefix_refl _, ?_⟩
        refine foldl_mergeStep_tail_mem ts' _ last ?_
        have hstep : (mergeStep st ⟨tt, .word⟩).mergedRev =
            (⟨st.leading ++ tt, .word⟩ : Token) :: st.mergedRev := by
          simp only [mergeStep]
          rw [if_pos hne]
        rw [hstep, hrev]
        exact List.mem_cons_self _ _

/-- C3 counterexample: a punctuation fragment separated from the next word
by a paragraph-break token is dropped by the merge pass, not attached as a
prefix of that word. -/
theorem C3_para_drops_pending_counterexample :
    (mergePunctuationTokens
          [⟨"…", .punct⟩, ⟨"\n\n", .para⟩, ⟨"Hi", .word⟩]).1 =
        [⟨"\n\n", .para⟩, ⟨"Hi", .word⟩] ∧
      (∀ tok ∈ (mergePunctuationTokens
          [⟨"…", .punct⟩, ⟨"\n\n", .para⟩, ⟨"Hi", .word⟩]).1,
        tok.kind = .word → ("…" : String).isPrefixOf tok.t = false) := by
  decide

/-- C3 (amended): a run of punctuation fragments with no preceding word in
the same paragraph run (at the start of the stream, or directly after a
paragraph-break token) is held as a pending prefix and attached to the next
word token of the same run: the concatenated punctuation text followed by
that word's text is a prefix of some merged word token.  (At a
paragraph-break or end of stream the pending text is dropped instead.) -/
theorem C3_pending_attached (pre qs rest : List Token) (w : String)
    (hpre : pre = [] ∨ ∃ p' t, t.kind = .para ∧ pre = p' ++ [t])
    (hqs : ∀ q ∈ qs, q.kind = .punct)
    (hne : textConcat qs ++ w ≠ "") :
    ∃ t2 ∈ (mergePunctuationTokens (pre ++ qs ++ ⟨w, .word⟩ :: rest)).1,
      t2.kind = .word ∧ (textConcat qs ++ w).data <+: t2.t.data := by
  have hstate : (pre.foldl mergeStep ⟨[], "", false⟩).leading = "" ∧
      (∀ last ∈ (pre.foldl mergeStep ⟨[], "", false⟩).mergedRev.head?,
        last.kind ≠ .word) := by
    rcases hpre with h | ⟨p', t, ht, h⟩
    · subst h
      exact ⟨rfl, by simp⟩
    · subst h
      rw [List.foldl_append]
      obtain ⟨tt, tk⟩ := t
      simp only at ht
      subst ht
      constructor
      · rw [List.foldl_cons, List.foldl_nil, mergeStep_para_leading]
      · rw [List.foldl_cons, List.foldl_nil, mergeStep_para_mergedRev]
        intro last hlast hkind
        simp only [List.head?_cons, Option.mem_def, Option.some.injEq] at hlast
        rw [← hlast] at hkind
        simp at hkind
  set st0 := pre.foldl mergeStep ⟨[], "", false⟩ with hst0
  have hq := foldl_mergeStep_puncts qs hqs st0 hstate.2
  set st1 := qs.foldl mergeStep st0 with hst1
  have hlead1 : st1.leading = textConcat qs := by
    rw [hq.2, hstate.1]
    exact (String.empty_append _)
  have hpush : (mergeStep st1 ⟨w, .word⟩).mergedRev =
      (⟨textConcat qs ++ w, .word⟩ : Token) :: st1.mergedRev := by
    simp only [mergeStep]
    rw [hlead1, if_pos hne]
  obtain ⟨t2, h2w, h2p, h2m⟩ :=
    foldl_mergeStep_head_word rest (mergeStep st1 ⟨w, .word⟩)
      ⟨textConcat qs ++ w, .word⟩ st1.mergedRev hpush rfl
  refine ⟨t2, ?_, h2w, h2p⟩
  rw [mergePunctuationTokens]
  rw [List.foldl_append, List.foldl_append, List.foldl_cons]
  exact List.mem_reverse.mpr h2m

/-- Witness for C3: the punctuation fragment "…" at stream start is
attached as a prefix of the following word "Hi". -/
theorem C3_pending_attached_witness :
    (∀ q ∈ [(⟨"…", .punct⟩ : Token)], q.kind = .punct) ∧
      ∃ t2 ∈ (mergePunctuationTokens
          ([] ++ [⟨"…", .punct⟩] ++ (⟨"Hi", .word⟩ : Token) :: [])).1,
        t2.kind = .word ∧
          (textConcat [(⟨"…", .punct⟩ : Token)] ++ "Hi").data <+: t2.t.data :=
  ⟨by decide,
    C3_pending_attached [] [⟨"…", .punct⟩] [] "Hi" (Or.inl rfl) (by decide) (by decide)⟩

/-- The ascending positions of word tokens in a stream (specification model
for `wordIndexToToken`). -/
def wordPositions : List Token → List Nat
  | [] => []
  | tok :: rest =>
    if tok.kind = .word then 0 :: (wordPositions rest).map (· + 1)
    else (wordPositions rest).map (· + 1)

theorem buildMaps_tw_length (ts : List Token) :
    ∀ i w, (buildMaps ts i w).2.length = ts.length := by
  induction ts with
  | nil => intro i w; rfl
  | cons tok rest ih =>
    intro i w
    simp only [buildMaps]
    split <;> simp [ih]

theorem buildMaps_wt_length (ts : List Token) :
    ∀ i w, (buildMaps ts i w).1.length = countWords ts := by
  induction ts with
  | nil => intro i w; rfl
  | cons tok rest ih =>
    intro i w
    simp only [buildMaps, countWords]
    split
    · next h => simp [ih, List.countP_cons, h, countWords]
    · next h =>
      have : (tok.kind == TokenKind.word) = false := by
        simpa using h
      simp [ih, List.countP_cons, this, countWords]

theorem buildMaps_wt (ts : List Token) :
    ∀ i w, (buildMaps ts i w).1 = (wordPositions ts).map (i + ·) := by
  induction ts with
  | nil => intro i w; rfl
  | cons tok rest ih =>
    intro i w
    simp only [buildMaps, wordPositions]
    split
    · simp only [List.map_cons, List.map_map, ih (i + 1)]
      refine congrArg₂ _ (by omega) ?_
      refine List.map_congr_left fun x _ => ?_
      simp
      omega
    · simp only [List.map_map, ih (i + 1)]
      refine List.map_congr_left fun x _ => ?_
      simp
      omega

theorem countWords_take_succ (ts : List Token) (j : Nat) (h : j < ts.length) :
    countWords (ts.take (j + 1)) =
      countWords (ts.take j) + (if (ts.get ⟨j, h⟩).kind = .word then 1 else 0) := by
  induction ts generalizing j with
  | nil => simp at h
  | cons tok rest ih =>
    cases j with
    | zero =>
      cases hk : tok.kind <;>
        simp [countWords, List.countP_cons, hk]
    | succ j' =>
      have hj' : j' < rest.length := by simpa using h
      have hg : (tok :: rest).get ⟨j' + 1, h⟩ = rest.get ⟨j', hj'⟩ := rfl
      have hrec := ih j' hj'
      rw [hg]
      simp only [List.take_succ_cons, countWords, List.countP_cons] at hrec ⊢
      omega

theorem countWords_take_le (ts : List Token) (j : Nat) :
    countWords (ts.take j) ≤ countWords ts := by
  exact List.Sublist.countP_le _ (List.take_sublist _ _)

theorem countWords_take_mono (ts : List Token) (j k : Nat) (h : j ≤ k) :
    countWords (ts.take j) ≤ countWords (ts.take k) := by
  have heq : ts.take j = (ts.take k).take j := by
    rw [List.take_take, Nat.min_eq_left h]
  rw [heq]
  exact List.Sublist.countP_le _ (List.take_sublist _ _)

theorem buildMaps_tw_getD (ts : List Token) :
    ∀ i w j (h : j < ts.length),
      (buildMaps ts i w).2.getD j (-1) =
        if (ts.get ⟨j, h⟩).kind = .word then ((w + countWords (ts.take j) : Nat) : Int)
        else -1 := by
  induction ts with
  | nil => intro i w j h; simp at h
  | cons tok rest ih =>
    intro i w j h
    cases j with
    | zero =>
      simp only [buildMaps]
      split <;> next hk => simp [hk, countWords]
    | succ j' =>
      have hj' : j' < rest.length := by simpa using h
      have hget : (tok :: rest).get ⟨j' + 1, h⟩ = rest.get ⟨j', hj'⟩ := rfl
      simp only [buildMaps]
      split
      · next hk =>
        simp only [List.getD_cons_succ]
        rw [ih (i + 1) (w + 1) j' hj', hget]
        have htake : countWords ((tok :: rest).take (j' + 1)) =
            countWords (rest.take j') + 1 := by
          rw [List.take_succ_cons, countWords, List.countP_cons]
          simp [hk, countWords]
        rw [htake]
        refine if_congr Iff.rfl ?_ rfl
        push_cast
        ring
      · next hk =>
        simp only [List.getD_cons_succ]
        rw [ih (i + 1) w j' hj', hget]
        have hbeq : (tok.kind == TokenKind.word) = false := by simpa using hk
        have htake : countWords ((tok :: rest).take (j' + 1)) =
            countWords (rest.take j') := by
          rw [List.take_succ_cons, countWords, List.countP_cons]
          simp [hbeq, countWords]
        rw [htake]

theorem walkBack_eq (ts : List Token) :
    ∀ idx (h : idx < ts.length),
      walkBack (buildMaps ts 0 0).2 idx = (countWords (ts.take (idx + 1)) : Int) - 1 := by
  intro idx
  induction idx with
  | zero =>
    intro h
    simp only [walkBack]
    rw [buildMaps_tw_getD ts 0 0 0 h, countWords_take_succ ts 0 h]
    by_cases hw : (ts.get ⟨0, h⟩).kind = .word <;>
      simp only [List.get_eq_getElem] at hw <;>
      simp [hw, countWords, List.take_zero]
  | succ idx ih =>
    intro h
    have hidx : idx < ts.length := by omega
    simp only [walkBack]
    rw [buildMaps_tw_getD ts 0 0 (idx + 1) h]
    by_cases hw : (ts.get ⟨idx + 1, h⟩).kind = .word
    · rw [if_pos hw]
      rw [if_neg (by omega : ¬((0 + countWords (ts.take (idx + 1)) : Nat) : Int) < 0)]
      rw [countWords_take_succ ts (idx + 1) h, if_pos hw]
      push_cast
      ring
    · rw [if_neg hw]
      rw [if_pos (by norm_num : (-1 : Int) < 0)]
      rw [ih hidx, countWords_take_succ ts (idx + 1) h, if_neg hw]
      push_cast
      ring

theorem gw_eq (ts : List Token) (hne : ts ≠ []) (t : Int) :
    getWordIndexForTokenIndex ts t =
      max 0 ((countWords (ts.take ((clamp t 0 ((ts.length : Int) - 1)).toNat + 1)) : Int)
        - 1) := by
  have hlen : 1 ≤ ts.length := List.length_pos.mpr hne
  rw [getWordIndexForTokenIndex, if_neg hne]
  simp only [getWordIndexMap]
  rw [buildMaps_tw_length]
  have hbound : (clamp t 0 ((ts.length : Int) - 1)).toNat < ts.length := by
    simp only [clamp]
    omega
  rw [walkBack_eq ts _ hbound]

/-- C10: the linear-scan word-index lookup and the cached-map lookup agree
on every token array and every (possibly out-of-range) token index. -/
theorem C10_linear_scan_matches_cached_map (ts : List Token) (t : Int) :
    getWordIndexForTokenIndexFromTokens ts t = getWordIndexForTokenIndex ts t := by
  by_cases hne : ts = []
  · subst hne; rfl
  · rw [gw_eq ts hne t, getWordIndexForTokenIndexFromTokens, if_neg hne]

theorem buildMaps_wt_zero (ts : List Token) (w : Nat) :
    (buildMaps ts 0 w).1 = wordPositions ts := by
  rw [buildMaps_wt]
  rw [show ((0 + ·) : Nat → Nat) = id from funext fun x => by simp]
  exact List.map_id _

theorem wordPositions_length (ts : List Token) :
    (wordPositions ts).length = countWords ts := by
  induction ts with
  | nil => rfl
  | cons tok rest ih =>
    simp only [wordPositions]
    split
    · next h => simp [countWords, List.countP_cons, h, ih, countWords]
    · next h =>
      have hbeq : (tok.kind == TokenKind.word) = false := by simpa using h
      simp [countWords, List.countP_cons, hbeq, ih, countWords]

theorem wordPositions_getD (ts : List Token) :
    ∀ t (h : t < ts.length), (ts.get ⟨t, h⟩).kind = .word →
      (wordPositions ts).getD (countWords (ts.take t)) 0 = t := by
  induction ts with
  | nil => intro t h; simp at h
  | cons tok rest ih =>
    intro t h hw
    cases t with
    | zero =>
      have hk : tok.kind = .word := hw
      simp [wordPositions, hk, countWords]
    | succ t' =>
      have ht' : t' < rest.length := by simpa using h
      have hw' : (rest.get ⟨t', ht'⟩).kind = .word := hw
      have hclt : countWords (rest.take t') < (wordPositions rest).length := by
        rw [wordPositions_length]
        have h1 := countWords_take_succ rest t' ht'
        rw [if_pos hw'] at h1
        have h2 := countWords_take_le rest (t' + 1)
        omega
      have hih := ih t' ht' hw'
      have hmap : ((wordPositions rest).map (· + 1)).getD (countWords (rest.take t')) 0 =
          t' + 1 := by
        rw [List.getD_eq_getElem _ _ (by rw [List.length_map]; exact hclt),
          List.getElem_map, ← List.getD_eq_getElem _ _ hclt, hih]
      by_cases hk : tok.kind = .word
      · have htake : countWords ((tok :: rest).take (t' + 1)) =
            countWords (rest.take t') + 1 := by
          rw [List.take_succ_cons, countWords, List.countP_cons]
          simp [hk, countWords]
        rw [htake]
        simp only [wordPositions, hk, if_pos]
        rw [List.getD_cons_succ]
        exact hmap
      · have hbeq : (tok.kind == TokenKind.word) = false := by simpa using hk
        have htake : countWords ((tok :: rest).take (t' + 1)) =
            countWords (rest.take t') := by
          rw [List.take_succ_cons, countWords, List.countP_cons]
          simp [hbeq, countWords]
        rw [htake]
        simp only [wordPositions, hk, if_neg]
        exact hmap

/-- C6: the derived word-index is monotonically non-decreasing in the token
index, and mapping a word token's index to its word index and back returns
a token index that is at least the original. -/
theorem C6_word_index_monotone_roundtrip :
    (∀ (ts : List Token) (t1 t2 : Int), ts ≠ [] → t1 ≤ t2 →
        getWordIndexForTokenIndex ts t1 ≤ getWordIndexForTokenIndex ts t2) ∧
      (∀ (ts : List Token) (t : Nat) (h : t < ts.length),
        (ts.get ⟨t, h⟩).kind = .word →
          (t : Int) ≤ getTokenIndexForWordIndex ts (getWordIndexForTokenIndex ts (t : Int))) := by
  constructor
  · intro ts t1 t2 hne hle
    rw [gw_eq ts hne t1, gw_eq ts hne t2]
    have hc : clamp t1 0 ((ts.length : Int) - 1) ≤ clamp t2 0 ((ts.length : Int) - 1) := by
      simp only [clamp]
      exact max_le_max (le_refl 0) (min_le_min (le_refl _) hle)
    have hn : (clamp t1 0 ((ts.length : Int) - 1)).toNat + 1 ≤
        (clamp t2 0 ((ts.length : Int) - 1)).toNat + 1 := by
      have := Int.toNat_le_toNat hc
      omega
    have hcount := countWords_take_mono ts _ _ hn
    exact max_le_max (le_refl 0) (by omega)
  · intro ts t h hw
    have hne : ts ≠ [] := List.ne_nil_of_length_pos (by omega)
    have hlen : 1 ≤ ts.length := List.length_pos.mpr hne
    have hcsucc := countWords_take_succ ts t h
    rw [if_pos hw] at hcsucc
    have hcle := countWords_take_le ts (t + 1)
    have hW : countWords (ts.take t) + 1 ≤ countWords ts := by omega
    have hgw : getWordIndexForTokenIndex ts (t : Int) = (countWords (ts.take t) : Int) := by
      rw [gw_eq ts hne (t : Int)]
      have hcl : clamp (t : Int) 0 ((ts.length : Int) - 1) = (t : Int) := by
        simp only [clamp]
        omega
      rw [hcl, Int.toNat_natCast, hcsucc]
      rw [max_eq_right (by omega)]
      push_cast
      ring
    rw [hgw, getTokenIndexForWordIndex, if_neg hne]
    simp only [getWordIndexMap]
    rw [buildMaps_wt_length, buildMaps_wt_zero]
    have hcl2 : (clamp ((countWords (ts.take t) : Nat) : Int) 0
        (max 0 ((countWords ts : Int) - 1))).toNat = countWords (ts.take t) := by
      simp only [clamp]
      omega
    rw [hcl2, wordPositions_getD ts t h hw]

/-- Witness for C6 on a concrete three-token stream. -/
theorem C6_word_index_monotone_roundtrip_witness :
    getWordIndexForTokenIndex [⟨"a", .word⟩, ⟨"\n\n", .para⟩, ⟨"b.", .word⟩] 0 ≤
        getWordIndexForTokenIndex [⟨"a", .word⟩, ⟨"\n\n", .para⟩, ⟨"b.", .word⟩] 5 ∧
      ((2 : Nat) : Int) ≤
        getTokenIndexForWordIndex [⟨"a", .word⟩, ⟨"\n\n", .para⟩, ⟨"b.", .word⟩]
          (getWordIndexForTokenIndex [⟨"a", .word⟩, ⟨"\n\n", .para⟩, ⟨"b.", .word⟩]
            ((2 : Nat) : Int)) :=
  ⟨C6_word_index_monotone_roundtrip.1 _ 0 5 (by decide) (by norm_num),
    C6_word_index_monotone_roundtrip.2 _ 2 (by decide) (by decide)⟩

theorem buildRangesAux_length (wcs : List Nat) :
    ∀ cursor idx, (buildRangesAux wcs cursor idx).length = wcs.length := by
  induction wcs with
  | nil => intro c i; rfl
  | cons wc rest ih => intro c i; simp [buildRangesAux, ih]

theorem sum_take_succ (l : List Nat) (j : Nat) (h : j < l.length) :
    (l.take (j + 1)).sum = (l.take j).sum + l.getD j 0 := by
  induction l generalizing j with
  | nil => simp at h
  | cons a rest ih =>
    cases j with
    | zero => simp
    | succ j' =>
      have hj' : j' < rest.length := by simpa using h
      have := ih j' hj'
      simp only [List.take_succ_cons, List.sum_cons, List.getD_cons_succ]
      omega

theorem sum_take_le (l : List Nat) (j : Nat) : (l.take j).sum ≤ l.sum := by
  induction l generalizing j with
  | nil => simp
  | cons a rest ih =>
    cases j with
    | zero => simp
    | succ j' =>
      simp only [List.take_succ_cons, List.sum_cons]
      have := ih j'
      omega

theorem sum_take_mono (l : List Nat) (j k : Nat) (h : j ≤ k) :
    (l.take j).sum ≤ (l.take k).sum := by
  have heq : l.take j = (l.take k).take j := by
    rw [List.take_take, Nat.min_eq_left h]
  rw [heq]
  exact sum_take_le _ _

theorem buildRangesAux_getD (wcs : List Nat) :
    ∀ cursor idx j, j < wcs.length →
      (buildRangesAux wcs cursor idx).getD j default =
        { page := idx + j + 1,
          start := ((cursor + (wcs.take j).sum : Nat) : Int),
          «end» := if wcs.getD j 0 ≠ 0 then
              ((cursor + (wcs.take j).sum : Nat) : Int) + wcs.getD j 0 - 1
            else ((cursor + (wcs.take j).sum : Nat) : Int),
          wordCount := wcs.getD j 0 } := by
  induction wcs with
  | nil => intro c i j h; simp at h
  | cons wc rest ih =>
    intro c i j h
    cases j with
    | zero =>
      simp only [buildRangesAux, List.getD_cons_zero, List.take_zero, List.sum_nil,
        PageRange.mk.injEq]
      and_intros <;> first
        | trivial
        | omega
        | (split <;> omega)
    | succ j' =>
      have hj' : j' < rest.length := by simpa using h
      simp only [buildRangesAux, List.getD_cons_succ]
      rw [ih (c + wc) (i + 1) j' hj']
      simp only [List.take_succ_cons, List.sum_cons, List.getD_cons_succ,
        PageRange.mk.injEq]
      and_intros <;> first
        | trivial
        | omega
        | (split <;> omega)

theorem countWords_flatten (L : List (List Token)) :
    countWords L.flatten = (L.map countWords).sum := by
  induction L with
  | nil => rfl
  | cons l L' ih =>
    simp only [List.flatten_cons, countWords, List.countP_append, List.map_cons,
      List.sum_cons]
    rw [← ih]
    rfl

theorem stripPdfHeadersFooters_length (pages : List PdfPage) (opts : StripOptions) :
    (stripPdfHeadersFooters pages opts).length = pages.length := by
  rw [stripPdfHeadersFooters]
  split
  · next h => simp [List.isEmpty_iff.mp h]
  · simp

theorem cover_exists (wcs : List Nat) :
    ∀ v : Nat, v < wcs.sum →
      ∃ j, j < wcs.length ∧ 0 < wcs.getD j 0 ∧
        (wcs.take j).sum ≤ v ∧ v < (wcs.take j).sum + wcs.getD j 0 := by
  induction wcs with
  | nil => simp
  | cons wc rest ih =>
    intro v hv
    by_cases hlt : v < wc
    · exact ⟨0, by simp, by simpa using Nat.lt_of_le_of_lt (Nat.zero_le v) hlt,
        by simp, by simpa using hlt⟩
    · have hv' : v - wc < rest.sum := by
        simp only [List.sum_cons] at hv
        omega
      obtain ⟨j, hj, hpos, hle, hlt2⟩ := ih (v - wc) hv'
      refine ⟨j + 1, by simpa using Nat.succ_lt_succ hj, by simpa using hpos, ?_, ?_⟩
      · rw [List.take_succ_cons, List.sum_cons]
        omega
      · rw [List.take_succ_cons, List.sum_cons]
        simp only [List.getD_cons_succ]
        omega

/-- C1 (amended): the PageRanges built by buildPdfContentFromPages are
numbered 1..n in order, start at word-index 0, are cursor-contiguous
(each start is the previous start plus the previous wordCount), a
fully-stripped page yields a zero-width range with end = start, and the
ranges with positive wordCount cover each word-index of [0, W-1] exactly
once.  (A zero-width range shares its start==end index with a neighbouring
range, so the full list is not non-overlapping whenever an empty page is
followed by a non-empty one.) -/
theorem C1_page_ranges_partition (pages : List PdfPage) (opts : StripOptions)
    (ranges : List PageRange) (W : Nat)
    (hr : ranges = (buildPdfContentFromPages pages opts).pageRanges)
    (hW : W = (buildPdfContentFromPages pages opts).wordCount) :
    ranges.length = pages.length ∧
      (∀ j, j < ranges.length → (ranges.getD j default).page = j + 1) ∧
      (0 < ranges.length → (ranges.getD 0 default).start = 0) ∧
      (∀ j, j + 1 < ranges.length →
        (ranges.getD (j + 1) default).start =
          (ranges.getD j default).start + (ranges.getD j default).wordCount) ∧
      (∀ j, j < ranges.length →
        ((ranges.getD j default).wordCount ≠ 0 →
          (ranges.getD j default).«end» =
            (ranges.getD j default).start + (ranges.getD j default).wordCount - 1) ∧
        ((ranges.getD j default).wordCount = 0 →
          (ranges.getD j default).«end» = (ranges.getD j default).start)) ∧
      (∀ w : Int, 0 ≤ w → w < (W : Int) →
        ∃ j, j < ranges.length ∧ 0 < (ranges.getD j default).wordCount ∧
          (ranges.getD j default).start ≤ w ∧ w ≤ (ranges.getD j default).«end») ∧
      (∀ (w : Int) (j k : Nat), j < ranges.length → k < ranges.length →
        0 < (ranges.getD j default).wordCount → 0 < (ranges.getD k default).wordCount →
        (ranges.getD j default).start ≤ w → w ≤ (ranges.getD j default).«end» →
        (ranges.getD k default).start ≤ w → w ≤ (ranges.getD k default).«end» →
        j = k) := by
  have hranges : (buildPdfContentFromPages pages opts).pageRanges =
      buildRangesAux (((stripPdfHeadersFooters pages opts).map tokenize).map countWords)
        0 0 := rfl
  have hwcval : (buildPdfContentFromPages pages opts).wordCount =
      (((stripPdfHeadersFooters pages opts).map tokenize).map countWords).sum := by
    show countWords ((stripPdfHeadersFooters pages opts).map tokenize).flatten = _
    rw [countWords_flatten]
  subst hr hW
  rw [hranges, hwcval]
  set wcs := ((stripPdfHeadersFooters pages opts).map tokenize).map countWords with hwcs
  have hlen : (buildRangesAux wcs 0 0).length = wcs.length := buildRangesAux_length wcs 0 0
  have hlenp : wcs.length = pages.length := by
    rw [hwcs]
    simp [stripPdfHeadersFooters_length]
  refine ⟨by rw [hlen, hlenp], ?_, ?_, ?_, ?_, ?_, ?_⟩
  · intro j hj
    rw [hlen] at hj
    rw [buildRangesAux_getD wcs 0 0 j hj]
    simp
  · intro hpos
    rw [hlen] at hpos
    rw [buildRangesAux_getD wcs 0 0 0 hpos]
    simp
  · intro j hj
    rw [hlen] at hj
    have hjlt : j < wcs.length := by omega
    rw [buildRangesAux_getD wcs 0 0 j hjlt, buildRangesAux_getD wcs 0 0 (j + 1) hj]
    have hsum := sum_take_succ wcs j hjlt
    simp only
    omega
  · intro j hj
    rw [hlen] at hj
    rw [buildRangesAux_getD wcs 0 0 j hj]
    constructor
    · intro hne
      simp only at hne ⊢
      rw [if_pos hne]
    · intro hz
      simp only at hz ⊢
      rw [if_neg (by omega)]
  · intro w hw0 hwlt
    obtain ⟨j, hj, hpos, hle, hlt⟩ := cover_exists wcs w.toNat (by omega)
    refine ⟨j, by omega, ?_, ?_, ?_⟩
    · rw [buildRangesAux_getD wcs 0 0 j hj]
      exact hpos
    · rw [buildRangesAux_getD wcs 0 0 j hj]
      simp only
      omega
    · rw [buildRangesAux_getD wcs 0 0 j hj]
      simp only
      rw [if_pos (by omega)]
      omega
  · have key : ∀ (w : Int) (j k : Nat), j < wcs.length → k < wcs.length → j < k →
        0 < wcs.getD j 0 → 0 < wcs.getD k 0 →
        ((buildRangesAux wcs 0 0).getD j default).start ≤ w →
        w ≤ ((buildRangesAux wcs 0 0).getD j default).«end» →
        ((buildRangesAux wcs 0 0).getD k default).start ≤ w →
        w ≤ ((buildRangesAux wcs 0 0).getD k default).«end» → False := by
      intro w j k hj hk hjk hpj hpk h1 h2 h3 h4
      rw [buildRangesAux_getD wcs 0 0 j hj] at h1 h2
      rw [buildRangesAux_getD wcs 0 0 k hk] at h3 h4
      simp only at h1 h2 h3 h4
      rw [if_pos (by omega)] at h2
      have hsucc := sum_take_succ wcs j hj
      have hmono := sum_take_mono wcs (j + 1) k (by omega)
      omega
    intro w j k hj hk hpj hpk h1 h2 h3 h4
    rw [hlen] at hj hk
    have hpj' : 0 < wcs.getD j 0 := by
      rw [buildRangesAux_getD wcs 0 0 j hj] at hpj
      exact hpj
    have hpk' : 0 < wcs.getD k 0 := by
      rw [buildRangesAux_getD wcs 0 0 k hk] at hpk
      exact hpk
    rcases Nat.lt_trichotomy j k with hlt | heq | hgt
    · exact absurd (key w j k hj hk hlt hpj' hpk' h1 h2 h3 h4) (fun x => x)
    · exact heq
    · exact absurd (key w k j hk hj hgt hpk' hpj' h3 h4 h1 h2) (fun x => x)

unseal Rat.mul Rat.inv Rat.sub Rat.add in
set_option maxRecDepth 10000 in
/-- C1 counterexample: when page 1 is fully stripped (its only line is the
page-number-like "3") and page 2 contains "hello world", the built ranges
are [(1, 0, 0, 0), (2, 0, 1, 2)]: word-index 0 lies in both ranges, so the
ranges are neither non-overlapping nor a cover of [0, W-1] exactly once. -/
theorem C1_zero_width_overlap_counterexample :
    (buildPdfContentFromPages
        [⟨0, 100, [⟨"3", 8⟩]⟩, ⟨1, 100, [⟨"hello world", 50⟩]⟩] {}).pageRanges =
      [⟨1, 0, 0, 0⟩, ⟨2, 0, 1, 2⟩] ∧
    (buildPdfContentFromPages
        [⟨0, 100, [⟨"3", 8⟩]⟩, ⟨1, 100, [⟨"hello world", 50⟩]⟩] {}).wordCount = 2 ∧
    (((buildPdfContentFromPages
        [⟨0, 100, [⟨"3", 8⟩]⟩, ⟨1, 100, [⟨"hello world", 50⟩]⟩] {}).pageRanges.getD 0
          default).start ≤ 0 ∧
      (0 : Int) ≤ ((buildPdfContentFromPages
        [⟨0, 100, [⟨"3", 8⟩]⟩, ⟨1, 100, [⟨"hello world", 50⟩]⟩] {}).pageRanges.getD 0
          default).«end») ∧
    (((buildPdfContentFromPages
        [⟨0, 100, [⟨"3", 8⟩]⟩, ⟨1, 100, [⟨"hello world", 50⟩]⟩] {}).pageRanges.getD 1
          default).start ≤ 0 ∧
      (0 : Int) ≤ ((buildPdfContentFromPages
        [⟨0, 100, [⟨"3", 8⟩]⟩, ⟨1, 100, [⟨"hello world", 50⟩]⟩] {}).pageRanges.getD 1
          default).«end») := by
  decide

unseal Rat.mul Rat.inv Rat.sub Rat.add in
set_option maxRecDepth 10000 in
/-- Witness for C1 on the concrete two-page input: the built range list has
one range per page, and word-index 1 is covered by a positive range. -/
theorem C1_page_ranges_partition_witness :
    (buildPdfContentFromPages
        [⟨0, 100, [⟨"3", 8⟩]⟩, ⟨1, 100, [⟨"hello world", 50⟩]⟩] {}).pageRanges.length =
      2 ∧
    ∃ j, j < (buildPdfContentFromPages
        [⟨0, 100, [⟨"3", 8⟩]⟩, ⟨1, 100, [⟨"hello world", 50⟩]⟩] {}).pageRanges.length ∧
      0 < ((buildPdfContentFromPages
        [⟨0, 100, [⟨"3", 8⟩]⟩, ⟨1, 100, [⟨"hello world", 50⟩]⟩] {}).pageRanges.getD j
          default).wordCount ∧
      ((buildPdfContentFromPages
        [⟨0, 100, [⟨"3", 8⟩]⟩, ⟨1, 100, [⟨"hello world", 50⟩]⟩] {}).pageRanges.getD j
          default).start ≤ 1 ∧
      (1 : Int) ≤ ((buildPdfContentFromPages
        [⟨0, 100, [⟨"3", 8⟩]⟩, ⟨1, 100, [⟨"hello world", 50⟩]⟩] {}).pageRanges.getD j
          default).«end» := by
  have h := C1_page_ranges_partition
    [⟨0, 100, [⟨"3", 8⟩]⟩, ⟨1, 100, [⟨"hello world", 50⟩]⟩] {} _ _ rfl rfl
  refine ⟨by simpa using h.1, ?_⟩
  exact h.2.2.2.2.2.1 1 (by norm_num)
    (by
      have : (buildPdfContentFromPages
          [⟨0, 100, [⟨"3", 8⟩]⟩, ⟨1, 100, [⟨"hello world", 50⟩]⟩] {}).wordCount = 2 := by
        decide
      rw [this]
      norm_num)

theorem mem_wordPositions (ts : List Token) :
    ∀ x, x ∈ wordPositions ts ↔
      ∃ hx : x < ts.length, (ts.get ⟨x, hx⟩).kind = .word := by
  induction ts with
  | nil => intro x; simp [wordPositions]
  | cons tok rest ih =>
    intro x
    have hmap : ∀ z : Nat, z ∈ (wordPositions rest).map (· + 1) ↔
        ∃ y, y ∈ wordPositions rest ∧ y + 1 = z := by
      intro z
      simp [List.mem_map]
    cases x with
    | zero =>
      simp only [wordPositions]
      by_cases hk : tok.kind = .word
      · rw [if_pos hk]
        simp only [List.mem_cons]
        constructor
        · intro _
          exact ⟨by simp, hk⟩
        · intro _
          exact Or.inl trivial
      · rw [if_neg hk]
        rw [hmap 0]
        constructor
        · rintro ⟨y, _, hy⟩
          omega
        · rintro ⟨_, hw⟩
          exact absurd hw hk
    | succ x' =>
      have hcore : x' + 1 ∈ (wordPositions rest).map (· + 1) ↔
          ∃ hx : x' + 1 < (tok :: rest).length,
            ((tok :: rest).get ⟨x' + 1, hx⟩).kind = .word := by
        rw [hmap]
        constructor
        · rintro ⟨y, hy, hyx⟩
          have hy' : y = x' := by omega
          subst hy'
          obtain ⟨h1, h2⟩ := (ih y).mp hy
          exact ⟨by simpa using Nat.succ_lt_succ h1, h2⟩
        · rintro ⟨hx, hw⟩
          exact ⟨x', (ih x').mpr ⟨by simpa using hx, hw⟩, rfl⟩
      simp only [wordPositions]
      by_cases hk : tok.kind = .word
      · rw [if_pos hk]
        simp only [List.mem_cons]
        constructor
        · rintro (habs | hmem)
          · omega
          · exact hcore.mp hmem
        · intro h
          exact Or.inr (hcore.mpr h)
      · rw [if_neg hk]
        exact hcore

theorem wordPositions_pairwise (ts : List Token) :
    List.Pairwise (· < ·) (wordPositions ts) := by
  induction ts with
  | nil => simp [wordPositions]
  | cons tok rest ih =>
    simp only [wordPositions]
    have hmap : List.Pairwise (· < ·) ((wordPositions rest).map (· + 1)) := by
      refine List.Pairwise.map _ (fun a b hab => by omega) ih
    split
    · refine List.Pairwise.cons ?_ hmap
      intro y hy
      simp only [List.mem_map] at hy
      obtain ⟨z, _, hz⟩ := hy
      omega
    · exact hmap

theorem wordPositions_getD_zero_le (ts : List Token) (x : Nat)
    (hx : x ∈ wordPositions ts) : (wordPositions ts).getD 0 0 ≤ x := by
  have hp := wordPositions_pairwise ts
  cases hwp : wordPositions ts with
  | nil => rw [hwp] at hx; simp at hx
  | cons a t =>
    rw [hwp] at hx hp
    rcases List.mem_cons.mp hx with h | h
    · subst h; simp
    · have := (List.pairwise_cons.mp hp).1 x h
      simp only [List.getD_cons_zero]
      omega

theorem wordPositions_le_getD_last (ts : List Token) (x : Nat)
    (hx : x ∈ wordPositions ts) :
    x ≤ (wordPositions ts).getD ((wordPositions ts).length - 1) 0 := by
  obtain ⟨⟨k, hk⟩, hkx⟩ := List.mem_iff_get.mp hx
  have hp := wordPositions_pairwise ts
  have hlast : (wordPositions ts).length - 1 < (wordPositions ts).length := by omega
  have hgd : (wordPositions ts).getD ((wordPositions ts).length - 1) 0 =
      (wordPositions ts).get ⟨(wordPositions ts).length - 1, hlast⟩ := by
    rw [List.getD_eq_getElem _ _ hlast]
    exact (List.get_eq_getElem (wordPositions ts)
      ⟨(wordPositions ts).length - 1, hlast⟩).symm
  rw [hgd]
  by_cases hkl : k = (wordPositions ts).length - 1
  · subst hkl
    exact le_of_eq hkx.symm
  · have hlt : k < (wordPositions ts).length - 1 := by omega
    have horder := List.pairwise_iff_get.mp hp ⟨k, hk⟩
      ⟨(wordPositions ts).length - 1, hlast⟩ (by simpa using hlt)
    rw [← hkx]
    exact le_of_lt horder

theorem wordPositions_getD_mem (ts : List Token) (k : Nat)
    (hk : k < (wordPositions ts).length) :
    (wordPositions ts).getD k 0 ∈ wordPositions ts := by
  rw [List.getD_eq_getElem _ _ hk]
  exact List.getElem_mem hk

theorem getTokenIndexForWordIndex_zero (ts : List Token) (w : Int)
    (hW : countWords ts = 0) : getTokenIndexForWordIndex ts w = 0 := by
  by_cases hts : ts = []
  · subst hts
    rfl
  · rw [getTokenIndexForWordIndex, if_neg hts]
    simp only [getWordIndexMap]
    rw [buildMaps_wt_length, buildMaps_wt_zero]
    have hwp : wordPositions ts = [] := by
      have hl := wordPositions_length ts
      rw [hW] at hl
      exact List.length_eq_zero.mp hl
    rw [hwp]
    simp

theorem getTokenIndexForWordIndex_low (ts : List Token) (w : Int)
    (hW : 1 ≤ countWords ts) (hw : w < 0) :
    getTokenIndexForWordIndex ts w = (((wordPositions ts).getD 0 0 : Nat) : Int) := by
  have hne : ts ≠ [] := by
    intro h
    rw [h] at hW
    simp [countWords] at hW
  rw [getTokenIndexForWordIndex, if_neg hne]
  simp only [getWordIndexMap]
  rw [buildMaps_wt_length, buildMaps_wt_zero]
  have hcl : (clamp w 0 (max 0 ((countWords ts : Int) - 1))).toNat = 0 := by
    simp only [clamp]
    omega
  rw [hcl]

theorem getTokenIndexForWordIndex_high (ts : List Token) (w : Int)
    (hW : 1 ≤ countWords ts) (hw : (countWords ts : Int) ≤ w) :
    getTokenIndexForWordIndex ts w =
      (((wordPositions ts).getD (countWords ts - 1) 0 : Nat) : Int) := by
  have hne : ts ≠ [] := by
    intro h
    rw [h] at hW
    simp [countWords] at hW
  rw [getTokenIndexForWordIndex, if_neg hne]
  simp only [getWordIndexMap]
  rw [buildMaps_wt_length, buildMaps_wt_zero]
  have hcl : (clamp w 0 (max 0 ((countWords ts : Int) - 1))).toNat = countWords ts - 1 := by
    simp only [clamp]
    omega
  rw [hcl]

theorem buildRanges_start_nonneg (wcs : List Nat) (j : Nat) :
    0 ≤ ((buildRangesAux wcs 0 0).getD j default).start := by
  by_cases hj : j < wcs.length
  · rw [buildRangesAux_getD wcs 0 0 j hj]
    simp only
    omega
  · rw [List.getD_eq_default _ _ (by rw [buildRangesAux_length]; omega)]
    decide

theorem buildRanges_start_le_end (wcs : List Nat) (j : Nat) :
    ((buildRangesAux wcs 0 0).getD j default).start ≤
      ((buildRangesAux wcs 0 0).getD j default).«end» := by
  by_cases hj : j < wcs.length
  · rw [buildRangesAux_getD wcs 0 0 j hj]
    simp only
    split <;> omega
  · rw [List.getD_eq_default _ _ (by rw [buildRangesAux_length]; omega)]
    decide

theorem buildRanges_end_le_last (wcs : List Nat) (hne : wcs ≠ []) (j : Nat) :
    ((buildRangesAux wcs 0 0).getD j default).«end» ≤
      ((buildRangesAux wcs 0 0).getD (wcs.length - 1) default).«end» := by
  have hpos : 0 < wcs.length := List.length_pos.mpr hne
  have hn1 : wcs.length - 1 < wcs.length := by omega
  rw [buildRangesAux_getD wcs 0 0 (wcs.length - 1) hn1]
  have hfull : (wcs.take (wcs.length - 1 + 1)).sum = wcs.sum := by
    rw [show wcs.length - 1 + 1 = wcs.length from by omega, List.take_length]
  have hlast := sum_take_succ wcs (wcs.length - 1) hn1
  by_cases hj : j < wcs.length
  · rw [buildRangesAux_getD wcs 0 0 j hj]
    have hsucc := sum_take_succ wcs j hj
    have hmono : (wcs.take (j + 1)).sum ≤ (wcs.take (wcs.length - 1 + 1)).sum :=
      sum_take_mono wcs (j + 1) (wcs.length - 1 + 1) (by omega)
    have hmono2 : (wcs.take j).sum ≤ (wcs.take (wcs.length - 1)).sum :=
      sum_take_mono wcs j (wcs.length - 1) (by omega)
    simp only
    split <;> split <;> omega
  · rw [List.getD_eq_default _ _ (by rw [buildRangesAux_length]; omega)]
    have hd : ((default : PageRange)).«end» = 0 := rfl
    rw [hd]
    simp only
    split <;> omega

theorem pdfSearch_all_below (ranges : List PageRange) (wi : Int) :
    ∀ (n : Nat) (lo hi : Int) (res : Nat), (hi + 1 - lo).toNat ≤ n → 0 ≤ lo → lo ≤ hi →
      (∀ j : Nat, wi < (ranges.getD j default).start) →
      pdfSearch ranges wi lo hi res = (ranges.getD lo.toNat default).page := by
  intro n
  induction n with
  | zero => intro lo hi res hn hlo hlohi hall; omega
  | succ n ih =>
    intro lo hi res hn hlo hlohi hall
    rw [pdfSearch.eq_def, dif_pos hlohi]
    dsimp only
    rw [if_pos (hall (((lo + hi) / 2).toNat))]
    by_cases hterm : (lo + hi) / 2 - 1 < lo
    · have hml : (lo + hi) / 2 = lo := by omega
      rw [hml, pdfSearch.eq_def, dif_neg (by omega : ¬ lo ≤ lo - 1)]
    · exact ih lo ((lo + hi) / 2 - 1) _ (by omega) hlo (by omega) hall

theorem pdfSearch_all_above (ranges : List PageRange) (wi : Int) :
    ∀ (n : Nat) (lo hi : Int) (res : Nat), (hi + 1 - lo).toNat ≤ n → 0 ≤ lo → lo ≤ hi →
      (∀ j : Nat, (ranges.getD j default).«end» < wi) →
      (∀ j : Nat, (ranges.getD j default).start ≤ (ranges.getD j default).«end») →
      pdfSearch ranges wi lo hi res = (ranges.getD hi.toNat default).page := by
  intro n
  induction n with
  | zero => intro lo hi res hn hlo hlohi hall hse; omega
  | succ n ih =>
    intro lo hi res hn hlo hlohi hall hse
    rw [pdfSearch.eq_def, dif_pos hlohi]
    dsimp only
    rw [if_neg (by
      have h1 := hall (((lo + hi) / 2).toNat)
      have h2 := hse (((lo + hi) / 2).toNat)
      omega)]
    rw [if_pos (hall (((lo + hi) / 2).toNat))]
    by_cases hterm : hi < (lo + hi) / 2 + 1
    · have hml : (lo + hi) / 2 = hi := by omega
      rw [hml, pdfSearch.eq_def, dif_neg (by omega : ¬ hi + 1 ≤ hi)]
    · exact ih ((lo + hi) / 2 + 1) hi _ (by omega) (by omega) (by omega) hall hse

theorem getPdfPageForWordIndex_ne (ranges : List PageRange) (w : Int) (hne : ranges ≠ []) :
    getPdfPageForWordIndex ranges w =
      pdfSearch ranges w 0 ((ranges.length : Int) - 1) (ranges.getD 0 default).page := by
  cases ranges with
  | nil => exact absurd rfl hne
  | cons r0 rest => rfl

/-- C8: out-of-range index requests are clamped and never error.  For a
stream with no word tokens `getTokenIndexForWordIndex` returns 0; for a
word index below 0 it returns the token index of the first word token (a
word position that lower-bounds every word position); for a word index
above W-1 it returns the token index of the last word token; and
`getPdfPageForWordIndex` on a word index below the first range's start
(resp. above the last range's end) returns the first (resp. last) recorded
page.  All the functions involved are total Lean functions, so no case can
throw. -/
theorem C8_out_of_range_clamped :
    (∀ (ts : List Token) (w : Int), countWords ts = 0 →
        getTokenIndexForWordIndex ts w = 0) ∧
      (∀ (ts : List Token) (w : Int), 1 ≤ countWords ts → w < 0 →
        ∃ hb : (getTokenIndexForWordIndex ts w).toNat < ts.length,
          (ts.get ⟨(getTokenIndexForWordIndex ts w).toNat, hb⟩).kind = .word ∧
            ∀ (j : Nat) (hj : j < ts.length), (ts.get ⟨j, hj⟩).kind = .word →
              getTokenIndexForWordIndex ts w ≤ (j : Int)) ∧
      (∀ (ts : List Token) (w : Int), 1 ≤ countWords ts → (countWords ts : Int) ≤ w →
        ∃ hb : (getTokenIndexForWordIndex ts w).toNat < ts.length,
          (ts.get ⟨(getTokenIndexForWordIndex ts w).toNat, hb⟩).kind = .word ∧
            ∀ (j : Nat) (hj : j < ts.length), (ts.get ⟨j, hj⟩).kind = .word →
              (j : Int) ≤ getTokenIndexForWordIndex ts w) ∧
      (∀ (pages : List PdfPage) (opts : StripOptions) (w : Int),
        (buildPdfContentFromPages pages opts).pageRanges ≠ [] →
        (w < ((buildPdfContentFromPages pages opts).pageRanges.getD 0 default).start →
          getPdfPageForWordIndex (buildPdfContentFromPages pages opts).pageRanges w =
            ((buildPdfContentFromPages pages opts).pageRanges.getD 0 default).page) ∧
        (((buildPdfContentFromPages pages opts).pageRanges.getD
              ((buildPdfContentFromPages pages opts).pageRanges.length - 1) default).«end» < w →
          getPdfPageForWordIndex (buildPdfContentFromPages pages opts).pageRanges w =
            ((buildPdfContentFromPages pages opts).pageRanges.getD
              ((buildPdfContentFromPages pages opts).pageRanges.length - 1) default).page)) := by
  refine ⟨getTokenIndexForWordIndex_zero, ?_, ?_, ?_⟩
  · intro ts w hW hw
    have hlow := getTokenIndexForWordIndex_low ts w hW hw
    have hlenpos : 0 < (wordPositions ts).length := by
      rw [wordPositions_length]
      omega
    have hmem := wordPositions_getD_mem ts 0 hlenpos
    obtain ⟨hb0, hword0⟩ := (mem_wordPositions ts _).mp hmem
    rw [hlow]
    have hid : ((((wordPositions ts).getD 0 0 : Nat) : Int)).toNat =
        (wordPositions ts).getD 0 0 := rfl
    rw [hid]
    refine ⟨hb0, hword0, ?_⟩
    intro j hj hjw
    have hjmem : j ∈ wordPositions ts := (mem_wordPositions ts j).mpr ⟨hj, hjw⟩
    have hle := wordPositions_getD_zero_le ts j hjmem
    omega
  · intro ts w hW hw
    have hhigh := getTokenIndexForWordIndex_high ts w hW hw
    have hlen := wordPositions_length ts
    have hlenpos : 0 < (wordPositions ts).length := by omega
    have hmem := wordPositions_getD_mem ts (countWords ts - 1) (by omega)
    obtain ⟨hb0, hword0⟩ := (mem_wordPositions ts _).mp hmem
    rw [hhigh]
    have hid : ((((wordPositions ts).getD (countWords ts - 1) 0 : Nat) : Int)).toNat =
        (wordPositions ts).getD (countWords ts - 1) 0 := rfl
    rw [hid]
    refine ⟨hb0, hword0, ?_⟩
    intro j hj hjw
    have hjmem : j ∈ wordPositions ts := (mem_wordPositions ts j).mpr ⟨hj, hjw⟩
    have hle := wordPositions_le_getD_last ts j hjmem
    rw [hlen] at hle
    omega
  · intro pages opts w hne
    have hr : (buildPdfContentFromPages pages opts).pageRanges =
        buildRangesAux (((stripPdfHeadersFooters pages opts).map tokenize).map countWords)
          0 0 := rfl
    rw [hr] at hne ⊢
    set wcs := ((stripPdfHeadersFooters pages opts).map tokenize).map countWords with hwcs
    have hlen : (buildRangesAux wcs 0 0).length = wcs.length := buildRangesAux_length wcs 0 0
    have hwcs_pos : 0 < wcs.length := by
      have h1 := List.length_pos.mpr hne
      rw [hlen] at h1
      exact h1
    have hne' : wcs ≠ [] := by
      intro h
      rw [h] at hwcs_pos
      simp at hwcs_pos
    have hstart0 : ((buildRangesAux wcs 0 0).getD 0 default).start = 0 := by
      rw [buildRangesAux_getD wcs 0 0 0 hwcs_pos]
      simp
    constructor
    · intro hw
      rw [hstart0] at hw
      have hall : ∀ j : Nat, w < ((buildRangesAux wcs 0 0).getD j default).start := by
        intro j
        have h2 := buildRanges_start_nonneg wcs j
        omega
      rw [getPdfPageForWordIndex_ne _ _ hne]
      have happ := pdfSearch_all_below (buildRangesAux wcs 0 0) w
        ((((buildRangesAux wcs 0 0).length : Int) - 1 + 1 - 0).toNat) 0
        (((buildRangesAux wcs 0 0).length : Int) - 1)
        ((buildRangesAux wcs 0 0).getD 0 default).page
        (by omega) (by omega) (by rw [hlen]; omega) hall
      rw [happ]
      rfl
    · intro hw
      have hse : ∀ j : Nat, ((buildRangesAux wcs 0 0).getD j default).start ≤
          ((buildRangesAux wcs 0 0).getD j default).«end» :=
        fun j => buildRanges_start_le_end wcs j
      rw [hlen] at hw
      have hall : ∀ j : Nat, ((buildRangesAux wcs 0 0).getD j default).«end» < w := by
        intro j
        have h3 := buildRanges_end_le_last wcs hne' j
        omega
      rw [getPdfPageForWordIndex_ne _ _ hne]
      have happ := pdfSearch_all_above (buildRangesAux wcs 0 0) w
        ((((buildRangesAux wcs 0 0).length : Int) - 1 + 1 - 0).toNat) 0
        (((buildRangesAux wcs 0 0).length : Int) - 1)
        ((buildRangesAux wcs 0 0).getD 0 default).page
        (by omega) (by omega) (by rw [hlen]; omega) hall hse
      rw [happ]
      have htn : (((buildRangesAux wcs 0 0).length : Int) - 1).toNat =
          (buildRangesAux wcs 0 0).length - 1 := by omega
      rw [htn, hlen]

unseal Rat.mul Rat.inv Rat.sub Rat.add in
set_option maxRecDepth 10000 in
/-- Witness for C8: a word-free stream, a three-token stream queried at
word indices -3 and 7, and the two-page PDF queried below and above its
ranges. -/
theorem C8_out_of_range_clamped_witness :
    getTokenIndexForWordIndex [(⟨"\n\n", .para⟩ : Token)] 5 = 0 ∧
      (∃ hb : (getTokenIndexForWordIndex
            [(⟨"a", .word⟩ : Token), ⟨"\n\n", .para⟩, ⟨"b.", .word⟩] (-3)).toNat <
          [(⟨"a", .word⟩ : Token), ⟨"\n\n", .para⟩, ⟨"b.", .word⟩].length,
        ([(⟨"a", .word⟩ : Token), ⟨"\n\n", .para⟩, ⟨"b.", .word⟩].get
            ⟨(getTokenIndexForWordIndex
                [(⟨"a", .word⟩ : Token), ⟨"\n\n", .para⟩, ⟨"b.", .word⟩] (-3)).toNat,
              hb⟩).kind = .word ∧
          ∀ (j : Nat)
            (hj : j < [(⟨"a", .word⟩ : Token), ⟨"\n\n", .para⟩, ⟨"b.", .word⟩].length),
            ([(⟨"a", .word⟩ : Token), ⟨"\n\n", .para⟩, ⟨"b.", .word⟩].get
              ⟨j, hj⟩).kind = .word →
              getTokenIndexForWordIndex
                [(⟨"a", .word⟩ : Token), ⟨"\n\n", .para⟩, ⟨"b.", .word⟩] (-3) ≤ (j : Int)) ∧
      (∃ hb : (getTokenIndexForWordIndex
            [(⟨"a", .word⟩ : Token), ⟨"\n\n", .para⟩, ⟨"b.", .word⟩] 7).toNat <
          [(⟨"a", .word⟩ : Token), ⟨"\n\n", .para⟩, ⟨"b.", .word⟩].length,
        ([(⟨"a", .word⟩ : Token), ⟨"\n\n", .para⟩, ⟨"b.", .word⟩].get
            ⟨(getTokenIndexForWordIndex
                [(⟨"a", .word⟩ : Token), ⟨"\n\n", .para⟩, ⟨"b.", .word⟩] 7).toNat,
              hb⟩).kind = .word ∧
          ∀ (j : Nat)
            (hj : j < [(⟨"a", .word⟩ : Token), ⟨"\n\n", .para⟩, ⟨"b.", .word⟩].length),
            ([(⟨"a", .word⟩ : Token), ⟨"\n\n", .para⟩, ⟨"b.", .word⟩].get
              ⟨j, hj⟩).kind = .word →
              (j : Int) ≤ getTokenIndexForWordIndex
                [(⟨"a", .word⟩ : Token), ⟨"\n\n", .para⟩, ⟨"b.", .word⟩] 7) ∧
      getPdfPageForWordIndex
          (buildPdfContentFromPages
            [⟨0, 100, [⟨"3", 8⟩]⟩, ⟨1, 100, [⟨"hello world", 50⟩]⟩] {}).pageRanges (-1) =
        ((buildPdfContentFromPages
            [⟨0, 100, [⟨"3", 8⟩]⟩, ⟨1, 100, [⟨"hello world", 50⟩]⟩] {}).pageRanges.getD
          0 default).page ∧
      getPdfPageForWordIndex
          (buildPdfContentFromPages
            [⟨0, 100, [⟨"3", 8⟩]⟩, ⟨1, 100, [⟨"hello world", 50⟩]⟩] {}).pageRanges 5 =
        ((buildPdfContentFromPages
            [⟨0, 100, [⟨"3", 8⟩]⟩, ⟨1, 100, [⟨"hello world", 50⟩]⟩] {}).pageRanges.getD
          ((buildPdfContentFromPages
            [⟨0, 100, [⟨"3", 8⟩]⟩, ⟨1, 100, [⟨"hello world", 50⟩]⟩] {}).pageRanges.length - 1)
          default).page :=
  ⟨C8_out_of_range_clamped.1 _ 5 (by decide),
    C8_out_of_range_clamped.2.1 _ (-3) (by decide) (by decide),
    C8_out_of_range_clamped.2.2.1 _ 7 (by decide) (by decide),
    (C8_out_of_range_clamped.2.2.2 _ {} (-1) (by decide)).1 (by decide),
    (C8_out_of_range_clamped.2.2.2 _ {} 5 (by decide)).2 (by decide)⟩
